import Mathlib

/-!
Verification model of the LaTeX document-integrity pipeline
(`clean_latex.py`, `latex_checker.py`, `fix_latex_errors.py`).

Documents are modelled as `List Char` (sequences of Unicode code points,
matching Python `str`).  The Python `re` scans are modelled by explicit,
fuel-based (hence structurally recursive and kernel-reducible) matcher
functions that reproduce the backtracking semantics of the concrete
patterns appearing in the source: alternation tried left to right at each
position, leftmost match wins, lazy `.*?` takes the nearest closer,
lookarounds inspect the original string.
-/

set_option autoImplicit false

namespace LatexModel

/-- Literal left brace (kept out of string literals). -/
def lbr : Char := Char.ofNat 123

/-- Literal right brace. -/
def rbr : Char := Char.ofNat 125

/-- Single quote character. -/
def squote : Char := Char.ofNat 39

/-- Backtick character. -/
def bquote : Char := Char.ofNat 96

/-- Double quote character. -/
def dquote : Char := Char.ofNat 34

/-- `startsL t s` : `t` is a (list) prefix of `s`. -/
def startsL : List Char → List Char → Bool
  | [], _ => true
  | _ :: _, [] => false
  | a :: t, b :: u => a == b && startsL t u

/-- Occurrence of the token `t` in `s` at position `p`. -/
def occAt (t s : List Char) (p : Nat) : Bool := startsL t (s.drop p)

/-- First occurrence position of `t` in `s` at index ≥ `i`, scanning from `s`
(which is the suffix of the original string starting at `i`). -/
def findSubFrom (t : List Char) : List Char → Nat → Option Nat
  | s, i =>
    match s with
    | [] => if t.isEmpty then some i else none
    | _ :: rest => if startsL t s then some i else findSubFrom t rest (i + 1)

/-- First occurrence position of `t` in `s` (Python `str.find`, lazy `.*?`). -/
def findSub (t s : List Char) : Option Nat := findSubFrom t s 0

/-- Python `in` for strings. -/
def hasSub (t s : List Char) : Bool := (findSub t s).isSome

/-- Number of positions of `s` at which `t` occurs. -/
def countSub (t s : List Char) : Nat :=
  (List.range (s.length + 1)).countP (fun p => occAt t s p)

/-- Python whitespace (ASCII part, the only part the sources can meet). -/
def isPySpace (c : Char) : Bool :=
  c == ' ' || c == '\t' || c == '\n' || c == '\r' ||
  c == Char.ofNat 11 || c == Char.ofNat 12

/-- Python `str.rstrip()`. -/
def rstripPy (s : List Char) : List Char :=
  (s.reverse.dropWhile isPySpace).reverse

/-- Python `str.strip()`. -/
def stripPy (s : List Char) : List Char :=
  ((s.dropWhile isPySpace).reverse.dropWhile isPySpace).reverse

/-- ASCII word character, Python `\w` (the sources only meet ASCII names). -/
def isWordChar (c : Char) : Bool :=
  c.isAlpha || c.isDigit || c == '_'

/-! ### Substitution tables of `clean_latex.py` -/

/-- `CHARS`: special characters to LaTeX escape sequences
(`clean_latex.py` lines 21-48). -/
def CHARS : List (Char × List Char) :=
  [ ('&', ['\\', '&']),
    ('%', ['\\', '%']),
    ('#', ['\\', '#']),
    ('_', ['\\', '_']),
    ('^', ("\\textasciicircum").data ++ [lbr, rbr]),
    ('<', ("$<$").data),
    ('>', ("$>$").data),
    (Char.ofNat 0x2264, ("$\\leq$").data),
    (Char.ofNat 0x2265, ("$\\geq$").data),
    (Char.ofNat 0x2260, ("$\\neq$").data),
    (Char.ofNat 0xb1, ("$\\pm$").data),
    (Char.ofNat 0xd7, ("$\\times$").data),
    (Char.ofNat 0xf7, ("$\\div$").data),
    (Char.ofNat 0xb0, ("$^").data ++ [lbr] ++ ("\\circ").data ++ [rbr, '$']),
    (Char.ofNat 0x221e, ("$\\infty$").data),
    (Char.ofNat 0x221a, ("$\\sqrt").data ++ [lbr, rbr, '$']),
    (Char.ofNat 0x2211, ("$\\sum$").data),
    (Char.ofNat 0x220f, ("$\\prod$").data),
    ('|', ("\\textbar").data ++ [lbr, rbr]),
    (Char.ofNat 0x2208, ("$\\in$").data),
    (Char.ofNat 0x2209, ("$\\notin$").data),
    (Char.ofNat 0x2200, ("$\\forall$").data),
    (Char.ofNat 0x2203, ("$\\exists$").data),
    (Char.ofNat 0x2205, ("$\\emptyset$").data),
    (Char.ofNat 0x200b, []),
    (Char.ofNat 0x202f, [' ']) ]

/-- `NON_UTF8_CHARS` (`clean_latex.py` lines 51-72). -/
def NON_UTF8_CHARS : List (Char × List Char) :=
  [ (Char.ofNat 0x2013, ("--").data),
    (Char.ofNat 0x2019, [squote]),
    (Char.ofNat 0x2018, [bquote]),
    (Char.ofNat 0x201c, [bquote, bquote]),
    (Char.ofNat 0x201d, [squote, squote]),
    (Char.ofNat 0xb2, ("$^2$").data),
    (Char.ofNat 0xb3, ("$^3$").data),
    (Char.ofNat 0xbc, ("$\\frac").data ++ [lbr, '1', rbr, lbr, '4', rbr, '$']),
    (Char.ofNat 0xbd, ("$\\frac").data ++ [lbr, '1', rbr, lbr, '2', rbr, '$']),
    (Char.ofNat 0xbe, ("$\\frac").data ++ [lbr, '3', rbr, lbr, '4', rbr, '$']),
    (Char.ofNat 0x2206, ("$\\Delta$").data),
    (Char.ofNat 0x2207, ("$\\nabla$").data),
    (Char.ofNat 0x2202, ("$\\partial$").data),
    (Char.ofNat 0x2014, ("---").data),
    (Char.ofNat 0x2026, ("\\ldots").data ++ [lbr, rbr]),
    (Char.ofNat 0xe9, ['\\', squote, 'e']),
    (Char.ofNat 0xe8, ['\\', bquote, 'e']),
    (Char.ofNat 0xfc, ['\\', dquote, 'u']),
    (Char.ofNat 0xf6, ['\\', dquote, 'o']),
    (Char.ofNat 0xe4, ['\\', dquote, 'a']) ]

/-- `TABLE_CHARS` (`clean_latex.py` lines 74-79). -/
def TABLE_CHARS : List (Char × List Char) :=
  [ ('>', ("$>$").data),
    ('<', ("$<$").data),
    ('=', ("$=$").data),
    ('|', ("\\textbar").data ++ [lbr, rbr]) ]

/-- Association lookup in a substitution table. -/
def tblLookup (tbl : List (Char × List Char)) (c : Char) : Option (List Char) :=
  match tbl with
  | [] => none
  | (k, v) :: rest => if c == k then some v else tblLookup rest c

/-! ### `replace_special_latex_chars` and `replace_non_utf8_chars`

`replace_special_latex_chars` applies the combined pattern
`(?<!\\)(k1|k2|...)` over the keys of `CHARS`.  All keys are single
characters, so the regex substitution is a per-character map whose
lookbehind inspects the previous character of the *original* string. -/

def replaceSpecialAux : Option Char → List Char → List Char
  | _, [] => []
  | prev, c :: rest =>
    (match tblLookup CHARS c with
     | some v => if prev == some '\\' then [c] else v
     | none => [c]) ++ replaceSpecialAux (some c) rest

/-- `replace_special_latex_chars` (`clean_latex.py` lines 129-133). -/
def replace_special_latex_chars (text : List Char) : List Char :=
  replaceSpecialAux none text

/-- One `str.replace(char, replacement)` pass (single-character needle). -/
def charReplace (k : Char) (v : List Char) : List Char → List Char
  | [] => []
  | c :: rest => (if c == k then v else [c]) ++ charReplace k v rest

/-- `replace_non_utf8_chars` (`clean_latex.py` lines 136-140): sequential
`str.replace` over the pairs of `NON_UTF8_CHARS`. -/
def replace_non_utf8_chars (text : List Char) : List Char :=
  NON_UTF8_CHARS.foldl (fun acc kv => charReplace kv.1 kv.2 acc) text

/-- `escape_table_chars` (`clean_latex.py` lines 169-172): the combined
pattern has no lookbehind, so it is a plain per-character map. -/
def escape_table_chars (text : List Char) : List Char :=
  text.flatMap (fun c =>
    match tblLookup TABLE_CHARS c with
    | some v => v
    | none => [c])

/-! ### The `SKIP_RE` matcher (`build_skip_pattern`, `clean_latex.py` 101-126)

Each alternative of the alternation is one matcher.  A matcher receives the
character preceding the current position (`prev`, for lookbehind) and the
suffix `u` starting at the current position, and returns the number of
characters the alternative consumes, or `none`. -/

/-- Exact literal. -/
def litM (pat u : List Char) : Option Nat :=
  if startsL pat u then some pat.length else none

/-- `[^t]*t` : consume up to and including the first occurrence of `t`. -/
def scanToChar (target : Char) (u : List Char) : Option Nat :=
  (u.findIdx? (fun c => c == target)).map (· + 1)

/-- `(?<!\\)%[^\n]*` — line comment. -/
def matchComment (prev : Option Char) (u : List Char) : Option Nat :=
  match u with
  | '%' :: rest =>
    if prev == some '\\' then none
    else some (1 + (rest.takeWhile (fun c => c != '\n')).length)
  | _ => none

/-- One `(?:\{[^}]*\}|\[[^\]]*\])` group: `(isBrace, length)`. -/
def groupOnce (u : List Char) : Option (Bool × Nat) :=
  match u with
  | [] => none
  | c :: rest =>
    if c == lbr then (scanToChar rbr rest).map (fun k => (true, 1 + k))
    else if c == '[' then (scanToChar ']' rest).map (fun k => (false, 1 + k))
    else none

/-- Greedy `(?:\{[^}]*\}|\[[^\]]*\])*`: the maximal run of groups. -/
def parseGroups : Nat → List Char → List (Bool × Nat)
  | 0, _ => []
  | fuel + 1, u =>
    match groupOnce u with
    | some (b, n) => (b, n) :: parseGroups fuel (u.drop n)
    | none => []

/-- Backtracking of the greedy star against the final `\{[^}]*\}`: trailing
bracket groups are given back one by one until a brace group closes the
match; no brace group at all means failure. -/
def trimGroups (gs : List (Bool × Nat)) : Option Nat :=
  let kept := (gs.reverse.dropWhile (fun g => !g.1)).reverse
  if kept.isEmpty then none
  else some (kept.foldl (fun a g => a + g.2) 0)

/-- Keywords of the command-definition alternative, in the order the regex
alternation tries them (`(?:re)?newcommand` prefers the `re` branch). -/
def NEWCMD_KEYWORDS : List (List Char) :=
  [ ("\\renewcommand").data, ("\\newcommand").data,
    ("\\providecommand").data, ("\\DeclareMathOperator").data ]

def matchKeyword : List (List Char) → List Char → Option Nat
  | [], _ => none
  | k :: ks, u => if startsL k u then some k.length else matchKeyword ks u

/-- `\\(?:(?:re)?newcommand|providecommand|DeclareMathOperator)\*?
(?:\{[^}]*\}|\[[^\]]*\])*\{[^}]*\}`. -/
def matchNewcmd (u : List Char) : Option Nat := do
  let n1 ← matchKeyword NEWCMD_KEYWORDS u
  let n2 := if (u.drop n1).head? == some '*' then n1 + 1 else n1
  let gn ← trimGroups (parseGroups (u.drop n2).length (u.drop n2))
  pure (n2 + gn)

/-- `\\def\\[a-zA-Z@]+[^{]*\{[^}]*\}`. -/
def matchDefCmd (u : List Char) : Option Nat := do
  let n1 ← litM (("\\def\\").data) u
  let letters := (u.drop n1).takeWhile (fun c => c.isAlpha || c == '@')
  if letters.isEmpty then none
  else do
    let k1 ← scanToChar lbr (u.drop (n1 + letters.length))
    let k2 ← scanToChar rbr (u.drop (n1 + letters.length + k1))
    pure (n1 + letters.length + k1 + k2)

/-- `\$\$.*?\$\$` (DOTALL). -/
def matchDisplayMath (u : List Char) : Option Nat := do
  let n1 ← litM (['$', '$']) u
  let k ← findSub (['$', '$']) (u.drop n1)
  pure (n1 + k + 2)

/-- Lazy search for `(?<!\$)\$(?!\$)`, threading the previous character. -/
def inlineCloser : Option Char → List Char → Option Nat
  | _, [] => none
  | prev, c :: rest =>
    if c == '$' && prev != some '$' && rest.head? != some '$' then some 1
    else (inlineCloser (some c) rest).map (· + 1)

/-- `(?<!\$)\$(?!\$).*?(?<!\$)\$(?!\$)` (DOTALL). -/
def matchInlineMath (prev : Option Char) (u : List Char) : Option Nat :=
  match u with
  | '$' :: rest =>
    if prev == some '$' then none
    else if rest.head? == some '$' then none
    else (inlineCloser (some '$') rest).map (· + 1)
  | _ => none

/-- `\\\(.*?\\\)` (DOTALL). -/
def matchParenMath (u : List Char) : Option Nat := do
  let n1 ← litM (['\\', '(']) u
  let k ← findSub (['\\', ')']) (u.drop n1)
  pure (n1 + k + 2)

/-- `\\\[.*?\\\]` (DOTALL). -/
def matchBrackMath (u : List Char) : Option Nat := do
  let n1 ← litM (['\\', '[']) u
  let k ← findSub (['\\', ']']) (u.drop n1)
  pure (n1 + k + 2)

/-- `LATEX_ENV_NAMES` (`clean_latex.py` 91-95), in source order. -/
def LATEX_ENV_NAMES : List (List Char) :=
  [ ("equation").data, ("equation*").data, ("align").data, ("align*").data,
    ("gather").data, ("gather*").data, ("math").data, ("displaymath").data,
    ("figure").data, ("figure*").data, ("lstlisting").data,
    ("tabular").data, ("tabular*").data, ("array").data ]

def envBegin (name : List Char) : List Char :=
  ("\\begin").data ++ [lbr] ++ name ++ [rbr]

def envEnd (name : List Char) : List Char :=
  ("\\end").data ++ [lbr] ++ name ++ [rbr]

/-- `\begin{name}.*?\end{name}` (DOTALL, literal name on both sides). -/
def matchEnvOne (name u : List Char) : Option Nat := do
  let n1 ← litM (envBegin name) u
  let k ← findSub (envEnd name) (u.drop n1)
  pure (n1 + k + (envEnd name).length)

def matchEnvList : List (List Char) → List Char → Option Nat
  | [], _ => none
  | n :: ns, u =>
    match matchEnvOne n u with
    | some k => some k
    | none => matchEnvList ns u

/-- `intro[^}]*\}` — e.g. `\ref{...}`, `\label{...}`, `\url{...}`. -/
def matchCmdArg (intro : List Char) (u : List Char) : Option Nat := do
  let n1 ← litM intro u
  let k ← scanToChar rbr (u.drop n1)
  pure (n1 + k)

/-- `\\cite[a-z]*\{[^}]*\}`. -/
def matchCite (u : List Char) : Option Nat := do
  let n1 ← litM (("\\cite").data) u
  let letters := (u.drop n1).takeWhile (fun c => 'a' ≤ c && c ≤ 'z')
  let n2 := n1 + letters.length
  if (u.drop n2).head? == some lbr then
    (scanToChar rbr (u.drop (n2 + 1))).map (fun k => n2 + 1 + k)
  else none

/-- `\\href\{[^}]*\}\{[^}]*\}`. -/
def matchHref (u : List Char) : Option Nat := do
  let n1 ← litM (("\\href").data ++ [lbr]) u
  let k1 ← scanToChar rbr (u.drop n1)
  if (u.drop (n1 + k1)).head? == some lbr then
    (scanToChar rbr (u.drop (n1 + k1 + 1))).map (fun k2 => n1 + k1 + 1 + k2)
  else none

def firstSome : List (Option Nat) → Option Nat
  | [] => none
  | o :: rest =>
    match o with
    | some n => some n
    | none => firstSome rest

/-- The whole `SKIP_RE` alternation at one position, alternatives in the
exact order `build_skip_pattern` concatenates them. -/
def tryAlt (prev : Option Char) (u : List Char) : Option Nat :=
  firstSome
    [ matchComment prev u,
      matchNewcmd u,
      matchDefCmd u,
      matchDisplayMath u,
      matchInlineMath prev u,
      matchParenMath u,
      matchBrackMath u,
      matchEnvList LATEX_ENV_NAMES u,
      matchCmdArg (("\\ref").data ++ [lbr]) u,
      matchCmdArg (("\\label").data ++ [lbr]) u,
      matchCmdArg (("\\autoref").data ++ [lbr]) u,
      matchCite u,
      matchCmdArg (("\\url").data ++ [lbr]) u,
      matchHref u ]

/-! ### Segmentation: `SKIP_RE.finditer` and `process_latex_text_and_math` -/

/-- One span of the segmentation: a protected (`skip = true`) region matched
by `SKIP_RE`, or the plain gap between two matches. -/
structure Piece where
  skip : Bool
  text : List Char
deriving DecidableEq

/-- The `finditer` scan, producing the alternating gap/match pieces exactly
as `process_latex_text_and_math` slices them: scanning is left to right, a
match consumes its text and scanning resumes after it, otherwise the scan
advances one character.  `prev` is the character before the current
position (the lookbehinds of the pattern read the original string). -/
def piecesLoop : Nat → Option Char → List Char → List Char → List Piece
  | 0, _, gapRev, u => [⟨false, gapRev.reverse ++ u⟩]
  | _ + 1, _, gapRev, [] => [⟨false, gapRev.reverse⟩]
  | fuel + 1, prev, gapRev, c :: rest =>
    match tryAlt prev (c :: rest) with
    | some n =>
      ⟨false, gapRev.reverse⟩ :: ⟨true, (c :: rest).take n⟩ ::
        piecesLoop fuel (some ((c :: rest).getD (n - 1) c)) [] ((c :: rest).drop n)
    | none => piecesLoop fuel (some c) (c :: gapRev) rest

/-- Segmentation of a document. -/
def piecesOf (s : List Char) : List Piece :=
  piecesLoop (s.length + 1) none [] s

/-- Reassembly with the two transforms of `process_latex_text_and_math`. -/
def renderPieces (pt pm : List Char → List Char) (ps : List Piece) : List Char :=
  (ps.map (fun p => if p.skip then pm p.text else pt p.text)).flatten

/-- `process_latex_text_and_math` (`clean_latex.py` 143-166): apply `pt` to
the gaps and `pm` to the `SKIP_RE` matches, concatenating in order. -/
def process_latex_text_and_math (pt pm : List Char → List Char)
    (text : List Char) : List Char :=
  renderPieces pt pm (piecesOf text)

/-- The defaults of the Python signature: `process_text` is
`replace_special_latex_chars`, `process_math` is the identity. -/
def processDefault (text : List Char) : List Char :=
  process_latex_text_and_math replace_special_latex_chars id text

/-! ### Tables (`escape_special_chars_in_table`, `clean_latex_file`) -/

def beginTabular : List Char := ("\\begin").data ++ [lbr] ++ ("tabular").data ++ [rbr]

def endTabular : List Char := ("\\end").data ++ [lbr] ++ ("tabular").data ++ [rbr]

/-- Python `s.split(t, 1)`: text before the first occurrence of `t` and the
remainder after it (only called when `t` occurs). -/
def splitOnceAt (t s : List Char) : List Char × List Char :=
  match findSub t s with
  | some p => (s.take p, s.drop (p + t.length))
  | none => (s, [])

/-- `escape_special_chars_in_table` (`clean_latex.py` 175-186). -/
def escape_special_chars_in_table (table : List Char) : List Char :=
  if !hasSub beginTabular table then table
  else if !hasSub endTabular table then table
  else
    let br := splitOnceAt beginTabular table
    let ta := splitOnceAt endTabular br.2
    br.1 ++ beginTabular ++
      process_latex_text_and_math escape_table_chars id ta.1 ++
      endTabular ++ ta.2

/-- `re.split(r'(\\begin\{tabular\}.*?\\end\{tabular\})', content, DOTALL)`:
the leftmost match starts at the first `\begin{tabular}` and runs to the
nearest following `\end{tabular}`; with the capture group, gaps and matches
alternate in the result. -/
def tabSplitLoop : Nat → List Char → List (List Char)
  | 0, s => [s]
  | fuel + 1, s =>
    match findSub beginTabular s with
    | none => [s]
    | some p =>
      match findSub endTabular (s.drop (p + beginTabular.length)) with
      | none => [s]
      | some q =>
        s.take p ::
          (s.drop p).take (beginTabular.length + q + endTabular.length) ::
            tabSplitLoop fuel
              (s.drop (p + (beginTabular.length + q + endTabular.length)))

def tabSplit (s : List Char) : List (List Char) :=
  tabSplitLoop (s.length + 1) s

/-- `clean_latex_file` (`clean_latex.py` 189-205). -/
def clean_latex_file (content : List Char) (tablesOnly : Bool) : List Char :=
  if tablesOnly then
    ((tabSplit content).map (fun part =>
      if startsL beginTabular part then escape_special_chars_in_table part
      else part)).flatten
  else
    processDefault (replace_non_utf8_chars content)

/-! ### Environment balance (`latex_checker.py` 238-250,
`fix_latex_errors.py` 153-181)

Both files scan with `re.findall(r'\\begin\{(\w+)\}', ...)` and
`re.findall(r'\\end\{(\w+)\}', ...)`: at each position, the literal intro,
then a maximal nonempty `\w+` run, then a literal `}`; on success the scan
resumes after the match, otherwise it advances one character. -/

def beginIntro : List Char := ("\\begin").data ++ [lbr]

def endIntro : List Char := ("\\end").data ++ [lbr]

def findEnvTokensLoop (intro : List Char) : Nat → List Char → List (List Char)
  | 0, _ => []
  | _ + 1, [] => []
  | fuel + 1, c :: rest =>
    if startsL intro (c :: rest) then
      let after := (c :: rest).drop intro.length
      let name := after.takeWhile isWordChar
      if !name.isEmpty && (after.drop name.length).head? == some rbr then
        name ::
          findEnvTokensLoop intro fuel
            ((c :: rest).drop (intro.length + name.length + 1))
      else findEnvTokensLoop intro fuel rest
    else findEnvTokensLoop intro fuel rest

def beginEnvNames (s : List Char) : List (List Char) :=
  findEnvTokensLoop beginIntro (s.length + 1) s

def endEnvNames (s : List Char) : List (List Char) :=
  findEnvTokensLoop endIntro (s.length + 1) s

/-- The balance check of `latex_checker.py` `main` (lines 238-250): one
`(name, begin_count, end_count)` finding per name with differing counts.
Python iterates a `set`, whose order is unspecified; the model fixes the
first-occurrence order (every property proved about it is
order-independent). -/
def envImbalanceIssues (s : List Char) : List (List Char × Nat × Nat) :=
  let begins := beginEnvNames s
  let ends := endEnvNames s
  ((begins ++ ends).dedup).filterMap (fun env =>
    let bc := begins.count env
    let ec := ends.count env
    if bc ≠ ec then some (env, bc, ec) else none)

/-! ### `fix_latex_errors.py` -/

/-- `LatexFix` (name, description); the `applied` flag is never set by any
modelled path and is omitted. -/
structure LatexFix where
  name : List Char
  description : List Char
deriving DecidableEq

/-- Python `log_content.split("\n")`. -/
def splitNlAux : List Char → List Char → List (List Char)
  | acc, [] => [acc.reverse]
  | acc, c :: rest =>
    if c == '\n' then acc.reverse :: splitNlAux [] rest
    else splitNlAux (c :: acc) rest

def splitNl (s : List Char) : List (List Char) := splitNlAux [] s

def missingRBraceTok : List Char := ("Missing ").data ++ [rbr] ++ (" inserted").data

def missingLBraceTok : List Char := ("Missing ").data ++ [lbr] ++ (" inserted").data

/-- The `if/elif` classification chain of `parse_errors`
(`fix_latex_errors.py` 49-63). -/
def classifyError (msg : List Char) : List Char :=
  if hasSub (("Undefined control sequence").data) msg then ("undefined_command").data
  else if hasSub (("Missing $ inserted").data) msg then ("missing_math").data
  else if hasSub missingRBraceTok msg || hasSub missingLBraceTok msg then
    ("missing_brace").data
  else if hasSub (("Environment").data) msg && hasSub (("undefined").data) msg then
    ("undefined_env").data
  else if hasSub (("File").data) msg && hasSub (("not found").data) msg then
    ("missing_file").data
  else if hasSub (("Misplaced alignment tab").data) msg then ("misplaced_tab").data
  else ("other").data

/-- One parsed issue.  The `context`/`line_num` fields of the Python dict
are only used to fill `line_num` (which no claim concerns) and are omitted
from the model; `key` is `[]` where the code stores no key. -/
structure PIssue where
  typ : List Char
  message : List Char
  key : List Char
deriving DecidableEq

def errMark : List Char := ['!', ' ']

/-- First loop of `parse_errors`: one issue per line starting `"! "`. -/
def errLoop : List (List Char) → List PIssue
  | [] => []
  | l :: rest =>
    if startsL errMark l then
      ⟨classifyError (l.drop 2), l.drop 2, []⟩ :: errLoop rest
    else errLoop rest

/-- `re.search(r"`([^']+)'", line)` : key between backtick and quote. -/
def extractKey : List Char → List Char
  | [] => []
  | c :: rest =>
    if c == bquote then
      let run := rest.takeWhile (fun d => d != squote)
      if !run.isEmpty && (rest.drop run.length).head? == some squote then run
      else extractKey rest
    else extractKey rest

/-- Second loop of `parse_errors`: citation/reference warnings. -/
def warnLoop : List (List Char) → List PIssue
  | [] => []
  | l :: rest =>
    if hasSub (("Citation").data) l && hasSub (("undefined").data) l then
      ⟨("undefined_citation").data, stripPy l, extractKey l⟩ :: warnLoop rest
    else if hasSub (("Reference").data) l && hasSub (("undefined").data) l then
      ⟨("undefined_reference").data, stripPy l, extractKey l⟩ :: warnLoop rest
    else warnLoop rest

/-- `parse_errors` (`fix_latex_errors.py` 32-79). -/
def parse_errors (log : List Char) : List PIssue :=
  errLoop (splitNl log) ++ warnLoop (splitNl log)

/-! ### `fix_html_tags` (`fix_latex_errors.py` 130-150)

The replacement patterns carry `re.IGNORECASE` (and no DOTALL, so `.` does
not cross newlines, while negated classes like `[^>]` do). -/

/-- Case-insensitive match of one pattern character (the patterns are all
ASCII, so `re.IGNORECASE` is the ASCII case fold). -/
def charCi (p c : Char) : Bool :=
  c == p || (('a' ≤ p && p ≤ 'z') && c == Char.ofNat (p.toNat - 32))

def litCi : List Char → List Char → Bool
  | [], _ => true
  | _ :: _, [] => false
  | p :: ps, c :: cs => charCi p c && litCi ps cs

def ciLitM (pat u : List Char) : Option Nat :=
  if litCi pat u then some pat.length else none

/-- Lazy `(.*?)` (no DOTALL) up to the case-insensitive closer: the body. -/
def bodyTo (closer : List Char) : List Char → Option (List Char)
  | [] => if litCi closer [] then some [] else none
  | c :: rest =>
    if litCi closer (c :: rest) then some []
    else if c == '\n' then none
    else (bodyTo closer rest).map (c :: ·)

/-- A rule returns (consumed length, replacement text). -/
def ruleTagPair (opening closing pre post : List Char) (u : List Char) :
    Option (Nat × List Char) := do
  let n1 ← ciLitM opening u
  let body ← bodyTo closing (u.drop n1)
  pure (n1 + body.length + closing.length, pre ++ body ++ post)

/-- `<br\s*/?>`. -/
def ruleBr (u : List Char) : Option (Nat × List Char) := do
  let n1 ← ciLitM (("<br").data) u
  let ws := ((u.drop n1).takeWhile isPySpace).length
  match u.drop (n1 + ws) with
  | '/' :: '>' :: _ => some (n1 + ws + 2, ['\\', '\\'])
  | '>' :: _ => some (n1 + ws + 1, ['\\', '\\'])
  | _ => none

def ruleLit (pat repl : List Char) (u : List Char) : Option (Nat × List Char) :=
  (ciLitM pat u).map (fun n => (n, repl))

/-- The name alternation of `</?(div|span|section|h[1-6])[^>]*>`. -/
def blockName (u : List Char) : Option Nat :=
  if litCi (("div").data) u then some 3
  else if litCi (("span").data) u then some 4
  else if litCi (("section").data) u then some 7
  else
    match u with
    | c :: d :: _ =>
      if (c == 'h' || c == 'H') && ('1' ≤ d && d ≤ '6') then some 2 else none
    | _ => none

def ruleBlock (u : List Char) : Option (Nat × List Char) :=
  match u with
  | '<' :: r1 =>
    let sl : Nat × List Char := match r1 with
      | '/' :: r2 => (2, r2)
      | _ => (1, r1)
    (do
      let bn ← blockName sl.2
      let k ← scanToChar '>' (sl.2.drop bn)
      pure (sl.1 + bn + k, ([] : List Char)))
  | _ => none

/-- `re.sub`: leftmost non-overlapping matches, scanning the input once. -/
def subAllLoop (rule : List Char → Option (Nat × List Char)) :
    Nat → List Char → List Char
  | 0, s => s
  | _ + 1, [] => []
  | fuel + 1, s@(c :: rest) =>
    match rule s with
    | some (n, repl) => repl ++ subAllLoop rule fuel (s.drop n)
    | none => c :: subAllLoop rule fuel rest

/-- `len(list(re.finditer(...)))` with the same scan. -/
def countMatchesLoop (rule : List Char → Option (Nat × List Char)) :
    Nat → List Char → Nat
  | 0, _ => 0
  | _ + 1, [] => 0
  | fuel + 1, s@(_ :: rest) =>
    match rule s with
    | some (n, _) => 1 + countMatchesLoop rule fuel (s.drop n)
    | none => countMatchesLoop rule fuel rest

structure HtmlRule where
  rule : List Char → Option (Nat × List Char)
  name : List Char

/-- The replacement list of `fix_html_tags`, in source order. -/
def HTML_RULES : List HtmlRule :=
  [ ⟨ruleTagPair (("<b>").data) (("</b>").data)
      (("\\textbf").data ++ [lbr]) [rbr], ("html_bold").data⟩,
    ⟨ruleTagPair (("<i>").data) (("</i>").data)
      (("\\textit").data ++ [lbr]) [rbr], ("html_italic").data⟩,
    ⟨ruleTagPair (("<em>").data) (("</em>").data)
      (("\\emph").data ++ [lbr]) [rbr], ("html_emphasis").data⟩,
    ⟨ruleBr, ("html_br").data⟩,
    ⟨ruleLit (("<p>").data) (("\n\n").data), ("html_p_open").data⟩,
    ⟨ruleLit (("</p>").data) [], ("html_p_close").data⟩,
    ⟨ruleTagPair (("<code>").data) (("</code>").data)
      (("\\texttt").data ++ [lbr]) [rbr], ("html_code").data⟩,
    ⟨ruleTagPair (("<sub>").data) (("</sub>").data)
      ['$', '_', lbr] [rbr, '$'], ("html_subscript").data⟩,
    ⟨ruleTagPair (("<sup>").data) (("</sup>").data)
      ['$', '^', lbr] [rbr, '$'], ("html_superscript").data⟩,
    ⟨ruleBlock, ("html_block").data⟩ ]

def natText (n : Nat) : List Char := (toString n).data

/-- `fix_html_tags` (`fix_latex_errors.py` 130-150): per rule, count the
matches on the current content; when nonzero, record one fix and
substitute. -/
def fix_html_tags (content : List Char) : List Char × List LatexFix :=
  HTML_RULES.foldl (fun acc r =>
    let n := countMatchesLoop r.rule (acc.1.length + 1) acc.1
    if n > 0 then
      (subAllLoop r.rule (acc.1.length + 1) acc.1,
       acc.2 ++ [⟨r.name, ("Replaced ").data ++ natText n ++ (" HTML ").data ++
                  r.name ++ (" tags").data⟩])
    else acc) (content, [])

/-! ### `fix_mismatched_environments` (`fix_latex_errors.py` 153-181) -/

def addEndFixName (env : List Char) : List Char := ("add_end_").data ++ env

def removeEndFixName (env : List Char) : List Char := ("remove_end_").data ++ env

/-- `content.rfind(sub)`: greatest occurrence position. -/
def lastOccFrom (t s : List Char) : Nat → Option Nat
  | 0 => if occAt t s 0 then some 0 else none
  | p + 1 => if occAt t s (p + 1) then some (p + 1) else lastOccFrom t s p

def lastOcc (t s : List Char) : Option Nat := lastOccFrom t s s.length

/-- `for _ in range(k): content = content.rstrip() + "\n\end{env}\n"`. -/
def appendEndLoop (env : List Char) :
    Nat → List Char × List LatexFix → List Char × List LatexFix
  | 0, acc => acc
  | k + 1, acc =>
    appendEndLoop env k
      (rstripPy acc.1 ++ '\n' :: envEnd env ++ ['\n'],
       acc.2 ++ [⟨addEndFixName env, ("Added missing ").data ++ envEnd env⟩])

/-- `for _ in range(k): idx = content.rfind(end); if idx >= 0: remove`. -/
def removeEndLoop (env : List Char) :
    Nat → List Char × List LatexFix → List Char × List LatexFix
  | 0, acc => acc
  | k + 1, acc =>
    removeEndLoop env k
      (match lastOcc (envEnd env) acc.1 with
       | some idx =>
         (acc.1.take idx ++ acc.1.drop (idx + (envEnd env).length),
          acc.2 ++ [⟨removeEndFixName env, ("Removed extra ").data ++ envEnd env⟩])
       | none => acc)

def fixEnvStep (begins ends : List (List Char))
    (acc : List Char × List LatexFix) (env : List Char) :
    List Char × List LatexFix :=
  let bc := begins.count env
  let ec := ends.count env
  if ec < bc then appendEndLoop env (bc - ec) acc
  else if bc < ec then removeEndLoop env (ec - bc) acc
  else acc

/-- `fix_mismatched_environments`.  The begin/end counts are computed once,
from the input content; Python then iterates a `set` of the names (order
unspecified — the model fixes the first-occurrence order; the properties
proved are order-independent). -/
def fix_mismatched_environments (content : List Char) :
    List Char × List LatexFix :=
  let begins := beginEnvNames content
  let ends := endEnvNames content
  ((begins ++ ends).dedup).foldl (fixEnvStep begins ends) (content, [])

/-- `fix_missing_math_mode` (`fix_latex_errors.py` 184-190): a documented
placeholder that performs no rewrite. -/
def fix_missing_math_mode (content : List Char) : List Char × List LatexFix :=
  (content, [])

/-! ### `fix_missing_figures` (`fix_latex_errors.py` 193-218) -/

def igIntro : List Char := ("\\includegraphics").data

/-- After `[`: lazy `.*?\]` constrained by the following `\{` (regex
backtracking extends the lazy body past a `]` not followed by `{`). -/
def brClose : List Char → Option Nat
  | [] => none
  | c :: rest =>
    if c == ']' && rest.head? == some lbr then some 1
    else if c == '\n' then none
    else (brClose rest).map (· + 1)

/-- `\\includegraphics(?:\[.*?\])?\{([^}]+)\}`: consumed length and the
captured path. -/
def matchIncludegraphics (u : List Char) : Option (Nat × List Char) := do
  let n1 ← litM igIntro u
  let n2 ← match u.drop n1 with
    | '[' :: rest => (brClose rest).map (fun k => n1 + 1 + k)
    | _ => some n1
  match u.drop n2 with
  | c :: rest =>
    if c == lbr then
      let run := rest.takeWhile (fun d => d != rbr)
      if !run.isEmpty && (rest.drop run.length).head? == some rbr then
        some (n2 + 1 + run.length + 1, run)
      else none
    else none
  | [] => none

/-- `re.finditer` positions (start, end, path) over the original content. -/
def igMatchesLoop : Nat → Nat → List Char → List (Nat × Nat × List Char)
  | 0, _, _ => []
  | _ + 1, _, [] => []
  | fuel + 1, pos, u@(_ :: rest) =>
    match matchIncludegraphics u with
    | some (n, path) => (pos, pos + n, path) :: igMatchesLoop fuel (pos + n) (u.drop n)
    | none => igMatchesLoop fuel (pos + 1) rest

def igMatches (s : List Char) : List (Nat × Nat × List Char) :=
  igMatchesLoop (s.length + 1) 0 s

/-- `content.rfind('\n', 0, bound)`: highest `i < bound` with a newline. -/
def lastNlBefore (s : List Char) (bound : Nat) : Option Nat :=
  ((List.range (min bound s.length)).filter
    (fun i => s.getD i ' ' == '\n')).getLast?

/-- `content.find(ch, start)`. -/
def findCharFromPos (ch : Char) (s : List Char) (start : Nat) : Option Nat :=
  ((List.range s.length).filter
    (fun i => start ≤ i && s.getD i ' ' == ch)).head?

def IMG_EXTS : List (List Char) :=
  [ (".png").data, (".pdf").data, (".jpg").data, (".jpeg").data, (".eps").data ]

/-- `os.path.join(tex_dir, fig_path)` (the cases the source can reach). -/
def pathJoin (dir p : List Char) : List Char :=
  if p.head? == some '/' then p
  else if dir.isEmpty then p
  else if dir.getLast? == some '/' then dir ++ p
  else dir ++ '/' :: p

/-- Existence check with the literal path and the extension fallbacks.
The filesystem is a parameter (`fsExists`). -/
def figureFound (fsExists : List Char → Bool) (dir p : List Char) : Bool :=
  let full := pathJoin dir p
  fsExists full || IMG_EXTS.any (fun e => fsExists (full ++ e))

def commentMarker : List Char := ("% FIXME: missing file - ").data

/-- `fix_missing_figures`.  Faithful to the source, including its stale
positions: the `re.finditer` matches are computed once on the input
`content`, while the line slicing and rewriting below use the evolving
string, so after an insertion the recorded match offsets lag behind. -/
def fix_missing_figures (fsExists : List Char → Bool)
    (texDir content : List Char) : List Char × List LatexFix :=
  (igMatches content).foldl (fun acc m =>
    if figureFound fsExists texDir m.2.2 then acc
    else
      let cur := acc.1
      let lineStart := match lastNlBefore cur m.1 with
        | some i => i + 1
        | none => 0
      let lineEnd := match findCharFromPos '\n' cur m.2.1 with
        | some i => i
        | none => cur.length
      let origLine := (cur.drop lineStart).take (lineEnd - lineStart)
      if startsL ['%'] (stripPy origLine) then acc
      else
        (cur.take lineStart ++ commentMarker ++ origLine ++ cur.drop lineEnd,
         acc.2 ++ [⟨("comment_missing_figure").data,
                    ("Commented out missing figure: ").data ++ m.2.2⟩]))
    (content, [])

/-! ### Spans and the partition invariant -/

/-- A span of the output partition: `[start, stop)` with its kind
(`skip = true` for a `SKIP_RE` match — protected; `skip = false` for a
plain gap). -/
structure Span where
  start : Nat
  stop : Nat
  skip : Bool
deriving DecidableEq

/-- Spans of a piece list laid out from `pos`. -/
def spansFrom : Nat → List Piece → List Span
  | _, [] => []
  | pos, p :: ps =>
    ⟨pos, pos + p.text.length, p.skip⟩ :: spansFrom (pos + p.text.length) ps

/-- The ordered span list of the segmentation of `s`. -/
def spansOf (s : List Char) : List Span := spansFrom 0 (piecesOf s)

/-- `spanChain lo hi l`: the spans of `l` tile `[lo, hi)` in order — each
span starts where the previous one stopped, starts never exceed stops, the
first span starts at `lo` and the last stops at `hi`.  (This packages
contiguity, sortedness, non-overlap and coverage.) -/
def spanChain : Nat → Nat → List Span → Prop
  | lo, hi, [] => lo = hi
  | lo, hi, sp :: t => sp.start = lo ∧ lo ≤ sp.stop ∧ spanChain sp.stop hi t

/-- Concatenation of the piece texts. -/
def joinTexts (ps : List Piece) : List Char := (ps.map Piece.text).flatten

/-- The text of `s` in `[a, b)`. -/
def sliceL (s : List Char) (a b : Nat) : List Char := (s.drop a).take (b - a)

theorem joinTexts_nil : joinTexts [] = [] := rfl

theorem joinTexts_cons (p : Piece) (ps : List Piece) :
    joinTexts (p :: ps) = p.text ++ joinTexts ps := by
  simp [joinTexts]

/-- The segmentation pieces always reassemble to the scanned text. -/
theorem piecesLoop_join : ∀ (fuel : Nat) (prev : Option Char) (gapRev u : List Char),
    joinTexts (piecesLoop fuel prev gapRev u) = gapRev.reverse ++ u := by
  intro fuel
  induction fuel with
  | zero => intro prev gapRev u; simp [piecesLoop, joinTexts]
  | succ f ih =>
    intro prev gapRev u
    cases u with
    | nil => simp [piecesLoop, joinTexts]
    | cons c rest =>
      simp only [piecesLoop]
      cases h : tryAlt prev (c :: rest) with
      | some n =>
        simp only [joinTexts_cons, ih, List.reverse_nil, List.nil_append]
        rw [← List.append_assoc, List.append_assoc (gapRev.reverse),
          List.take_append_drop]
      | none =>
        rw [ih]
        simp

theorem piecesOf_join (s : List Char) : joinTexts (piecesOf s) = s := by
  simpa using piecesLoop_join (s.length + 1) none [] s

theorem spansFrom_chain : ∀ (ps : List Piece) (pos : Nat),
    spanChain pos (pos + (joinTexts ps).length) (spansFrom pos ps) := by
  intro ps
  induction ps with
  | nil => intro pos; simp [spansFrom, spanChain, joinTexts]
  | cons p t ih =>
    intro pos
    refine ⟨rfl, Nat.le_add_right _ _, ?_⟩
    have := ih (pos + p.text.length)
    simpa [joinTexts_cons, Nat.add_assoc] using this

theorem spansFrom_slices : ∀ (ps : List Piece) (pre d : List Char),
    d = pre ++ joinTexts ps →
    ((spansFrom pre.length ps).map (fun sp => sliceL d sp.start sp.stop)).flatten
      = joinTexts ps := by
  intro ps
  induction ps with
  | nil => intro pre d _; simp [spansFrom, joinTexts]
  | cons p t ih =>
    intro pre d hd
    have hslice : sliceL d pre.length (pre.length + p.text.length) = p.text := by
      have : d = pre ++ (p.text ++ joinTexts t) := by
        simpa [joinTexts_cons] using hd
      simp only [sliceL, this, Nat.add_sub_cancel_left, List.drop_left]
      exact List.take_left' rfl
    have harg : d = (pre ++ p.text) ++ joinTexts t := by
      simpa [joinTexts_cons, List.append_assoc] using hd
    have := ih (pre ++ p.text) d harg
    simp only [spansFrom, List.map_cons, List.flatten_cons, hslice, joinTexts_cons]
    congr 1
    simpa [List.length_append] using this

/-- C1 (partition invariant of the Region Segmenter): for every document,
the identity-transform reassembly of `process_latex_text_and_math`
reproduces the document, the piece texts concatenate to the document, and
the span list is an ordered partition of `[0, len)` (contiguous spans,
sorted by start, each stop equal to the next start) whose slices
concatenate back to the document. -/
theorem c1_segmenter_partition : ∀ (d : List Char),
    process_latex_text_and_math id id d = d
    ∧ joinTexts (piecesOf d) = d
    ∧ spanChain 0 d.length (spansOf d)
    ∧ ((spansOf d).map (fun sp => sliceL d sp.start sp.stop)).flatten = d := by
  intro d
  have hjoin := piecesOf_join d
  have hproc : process_latex_text_and_math id id d = d := by
    have : renderPieces id id (piecesOf d) = joinTexts (piecesOf d) := by
      simp [renderPieces, joinTexts]
    simpa [process_latex_text_and_math, this] using hjoin
  have hchain : spanChain 0 d.length (spansOf d) := by
    have := spansFrom_chain (piecesOf d) 0
    simpa [spansOf, hjoin] using this
  have hslices : ((spansOf d).map (fun sp => sliceL d sp.start sp.stop)).flatten = d := by
    have := spansFrom_slices (piecesOf d) [] d (by simpa using hjoin.symm)
    simpa [spansOf, hjoin] using this
  exact ⟨hproc, hjoin, hchain, hslices⟩

/-- C5 (escape correctness): the Character Sanitizer on the plain text
`50% of cases & 3#items` escapes every `%`, `&`, `#` with a backslash; the
same text as the body of a `\begin{tabular}..\end{tabular}` environment is
processed by the table-cell table only (`<`, `>`, `=`, `|`), so `%`, `&`,
`#` stay untouched and the environment is returned unchanged. -/
theorem c5_escape_correctness :
    replace_special_latex_chars (("50% of cases & 3#items").data) =
      ("50\\% of cases \\& 3\\#items").data
    ∧ escape_special_chars_in_table
        (beginTabular ++ ("50% of cases & 3#items").data ++ endTabular) =
      beginTabular ++ ("50% of cases & 3#items").data ++ endTabular := by
  exact ⟨by decide, by decide⟩

/-! ### C3: idempotence of the sanitizer -/

theorem charReplace_self_of_not_mem {k : Char} {v : List Char} :
    ∀ {s : List Char}, k ∉ s → charReplace k v s = s := by
  intro s
  induction s with
  | nil => intro _; rfl
  | cons x t ih =>
    intro h
    have hx : ¬(x == k) = true := by
      simp only [beq_iff_eq]
      rintro rfl
      exact h (List.mem_cons_self _ _)
    simp [charReplace, hx, ih (fun hm => h (List.mem_cons_of_mem _ hm))]

theorem mem_charReplace {k a : Char} {v : List Char} :
    ∀ {s : List Char}, a ∈ charReplace k v s → a ∈ v ∨ a ∈ s := by
  intro s
  induction s with
  | nil => intro h; exact absurd h (by simp [charReplace])
  | cons x t ih =>
    intro h
    simp only [charReplace] at h
    rcases List.mem_append.mp h with h1 | h2
    · by_cases hxk : (x == k) = true
      · rw [if_pos hxk] at h1; exact Or.inl h1
      · rw [if_neg hxk] at h1
        rcases List.mem_singleton.mp h1 with rfl
        exact Or.inr (List.mem_cons_self _ _)
    · rcases ih h2 with h3 | h3
      · exact Or.inl h3
      · exact Or.inr (List.mem_cons_of_mem _ h3)

theorem not_mem_charReplace_self {k : Char} {v : List Char} (hv : k ∉ v) :
    ∀ {s : List Char}, k ∉ charReplace k v s := by
  intro s
  induction s with
  | nil => simp [charReplace]
  | cons x t ih =>
    intro h
    simp only [charReplace] at h
    rcases List.mem_append.mp h with h1 | h2
    · by_cases hxk : (x == k) = true
      · rw [if_pos hxk] at h1; exact hv h1
      · rw [if_neg hxk] at h1
        rcases List.mem_singleton.mp h1 with rfl
        exact hxk (beq_self_eq_true _)
    · exact ih h2

/-- Folding `charReplace` over pairs never reintroduces an absent character
that no replacement text contains. -/
theorem fold_charReplace_pres_absent :
    ∀ (L : List (Char × List Char)) (s : List Char) (a : Char),
      (∀ kv ∈ L, a ∉ kv.2) → a ∉ s →
      a ∉ L.foldl (fun acc kv => charReplace kv.1 kv.2 acc) s := by
  intro L
  induction L with
  | nil => intro s a _ hs; simpa using hs
  | cons kv t ih =>
    intro s a hL hs
    simp only [List.foldl_cons]
    refine ih _ a (fun kv' h => hL kv' (List.mem_cons_of_mem _ h)) ?_
    intro hmem
    rcases mem_charReplace hmem with h | h
    · exact hL kv (List.mem_cons_self _ _) h
    · exact hs h

theorem fold_charReplace_removes :
    ∀ (L : List (Char × List Char)) (s : List Char) (kv : Char × List Char),
      kv ∈ L → (∀ kv' ∈ L, kv.1 ∉ kv'.2) →
      kv.1 ∉ L.foldl (fun acc kv' => charReplace kv'.1 kv'.2 acc) s := by
  intro L
  induction L with
  | nil => intro s kv h; exact absurd h (List.not_mem_nil _)
  | cons hd t ih =>
    intro s kv hmem hrep
    rcases List.mem_cons.mp hmem with rfl | hmem'
    · simp only [List.foldl_cons]
      refine fold_charReplace_pres_absent t _ kv.1
        (fun kv' h => hrep kv' (List.mem_cons_of_mem _ h)) ?_
      exact not_mem_charReplace_self (hrep kv (List.mem_cons_self _ _))
    · simp only [List.foldl_cons]
      exact ih _ kv hmem' (fun kv' h => hrep kv' (List.mem_cons_of_mem _ h))

theorem fold_charReplace_id_of_absent :
    ∀ (L : List (Char × List Char)) (s : List Char),
      (∀ kv ∈ L, kv.1 ∉ s) →
      L.foldl (fun acc kv => charReplace kv.1 kv.2 acc) s = s := by
  intro L
  induction L with
  | nil => intro s _; rfl
  | cons kv t ih =>
    intro s h
    have h0 : charReplace kv.1 kv.2 s = s :=
      charReplace_self_of_not_mem (h kv (List.mem_cons_self _ _))
    simp only [List.foldl_cons, h0]
    exact ih s (fun kv' hm => h kv' (List.mem_cons_of_mem _ hm))

/-- No key of the normalization table occurs in any of its replacement
texts (the replacements are ASCII, the keys are not). -/
theorem nonUtf8_keys_not_in_repls :
    ∀ kv ∈ NON_UTF8_CHARS, ∀ kv' ∈ NON_UTF8_CHARS, kv.1 ∉ kv'.2 := by decide

theorem replace_non_utf8_keyFree (s : List Char) :
    ∀ kv ∈ NON_UTF8_CHARS, kv.1 ∉ replace_non_utf8_chars s := by
  intro kv h
  exact fold_charReplace_removes NON_UTF8_CHARS s kv h (nonUtf8_keys_not_in_repls kv h)

theorem replace_non_utf8_id_of_keyFree {s : List Char}
    (h : ∀ kv ∈ NON_UTF8_CHARS, kv.1 ∉ s) : replace_non_utf8_chars s = s :=
  fold_charReplace_id_of_absent NON_UTF8_CHARS s h

/-- `escOkAux prev s`: every `CHARS` key occurring in `s` is directly
preceded by the escape character (`prev` is the character before `s`). -/
def escOkAux : Option Char → List Char → Bool
  | _, [] => true
  | prev, c :: rest =>
    ((tblLookup CHARS c).isNone || prev == some '\\') && escOkAux (some c) rest

def escOk (s : List Char) : Bool := escOkAux none s

theorem replaceSpecialAux_id : ∀ (prev : Option Char) (s : List Char),
    escOkAux prev s = true → replaceSpecialAux prev s = s := by
  intro prev s
  induction s generalizing prev with
  | nil => intro _; rfl
  | cons c t ih =>
    intro h
    simp only [escOkAux, Bool.and_eq_true, Bool.or_eq_true] at h
    obtain ⟨h1, h2⟩ := h
    simp only [replaceSpecialAux]
    rcases h1 with h1 | h1
    · cases hl : tblLookup CHARS c with
      | none => simp [ih (some c) h2]
      | some v => rw [hl] at h1; simp at h1
    · cases hl : tblLookup CHARS c with
      | none => simp [ih (some c) h2]
      | some v => simp [h1, ih (some c) h2]

/-- C3 amended: full-pipeline idempotence fails (see the counterexample),
but the two substitution passes have the claimed non-double-escaping
behavior: the non-ASCII normalization is idempotent, and the combined
escape pattern leaves a text whose special characters are all already
escaped (preceded by a backslash) unchanged — an already-escaped character
is never double-escaped. -/
theorem c3_sanitizer_idempotence_amended :
    (∀ s : List Char,
      replace_non_utf8_chars (replace_non_utf8_chars s) = replace_non_utf8_chars s)
    ∧ (∀ s : List Char, escOk s = true → replace_special_latex_chars s = s) := by
  constructor
  · intro s
    exact replace_non_utf8_id_of_keyFree (replace_non_utf8_keyFree s)
  · intro s h
    exact replaceSpecialAux_id none s h

theorem c3_amended_witness :
    replace_non_utf8_chars (replace_non_utf8_chars [Char.ofNat 0x2013]) =
      replace_non_utf8_chars [Char.ofNat 0x2013]
    ∧ (escOk (['\\', '&', 'x']) = true ∧
        replace_special_latex_chars ['\\', '&', 'x'] = ['\\', '&', 'x']) :=
  ⟨c3_sanitizer_idempotence_amended.1 [Char.ofNat 0x2013],
   by decide,
   c3_sanitizer_idempotence_amended.2 ['\\', '&', 'x'] (by decide)⟩

/-- C3 counterexample: `clean_latex_file` is not idempotent.  On the
two-character document `<$` the first pass rewrites `<` to the math form,
whose closing dollar merges with the stray `$` of the document; on the
second pass the `<` is no longer protected and is escaped again. -/
theorem c3_counterexample :
    clean_latex_file (("<$").data) false = ("$<$$").data
    ∧ clean_latex_file (clean_latex_file (("<$").data) false) false =
        ("$$<$$$").data
    ∧ clean_latex_file (clean_latex_file (("<$").data) false) false ≠
        clean_latex_file (("<$").data) false := by
  exact ⟨by decide, by decide, by decide⟩

/-! ### C2: protection of recognized constructs -/

theorem skip_text_infix_render (pt : List Char → List Char) :
    ∀ (ps : List Piece) (p : Piece), p ∈ ps → p.skip = true →
      ∃ l r, l ++ p.text ++ r = renderPieces pt id ps := by
  intro ps
  induction ps with
  | nil => intro p h; exact absurd h (List.not_mem_nil _)
  | cons hd t ih =>
    intro p hmem hskip
    rcases List.mem_cons.mp hmem with rfl | hmem'
    · refine ⟨[], renderPieces pt id t, ?_⟩
      simp [renderPieces, hskip]
    · obtain ⟨l, r, hlr⟩ := ih p hmem' hskip
      refine ⟨(if hd.skip then id hd.text else pt hd.text) ++ l, r, ?_⟩
      simp only [renderPieces, List.map_cons, List.flatten_cons] at *
      rw [← hlr]
      simp [List.append_assoc]

/-- C2 amended: on a document containing no key of the non-ASCII
normalization table, the full sanitizer is exactly the segmentation-aware
pass: every recognized protected construct (a `SKIP_RE` match piece) is
carried into the output byte-identically (`process_math` is the identity),
and only the plain gaps are rewritten.  (Without that restriction the
claim fails — the normalization is applied to the whole document before
segmentation; see the counterexample.) -/
theorem c2_protection_amended :
    ∀ d : List Char, (∀ kv ∈ NON_UTF8_CHARS, kv.1 ∉ d) →
      clean_latex_file d false =
        renderPieces replace_special_latex_chars id (piecesOf d)
      ∧ joinTexts (piecesOf d) = d
      ∧ ∀ p ∈ piecesOf d, p.skip = true →
          ∃ l r, l ++ p.text ++ r = clean_latex_file d false := by
  intro d hfree
  have hid : replace_non_utf8_chars d = d := replace_non_utf8_id_of_keyFree hfree
  have h1 : clean_latex_file d false =
      renderPieces replace_special_latex_chars id (piecesOf d) := by
    simp [clean_latex_file, processDefault, process_latex_text_and_math, hid]
  refine ⟨h1, piecesOf_join d, ?_⟩
  intro p hmem hskip
  obtain ⟨l, r, hlr⟩ := skip_text_infix_render replace_special_latex_chars
    (piecesOf d) p hmem hskip
  exact ⟨l, r, by rw [hlr, h1]⟩

theorem c2_amended_witness :
    (∀ kv ∈ NON_UTF8_CHARS, kv.1 ∉ ("a_b $x_2$ c").data)
    ∧ clean_latex_file (("a_b $x_2$ c").data) false =
        renderPieces replace_special_latex_chars id (piecesOf (("a_b $x_2$ c").data)) :=
  ⟨by decide, (c2_protection_amended (("a_b $x_2$ c").data) (by decide)).1⟩

/-- C2 counterexample: the document `$–$` (an en dash inside inline math)
is a single recognized protected construct, yet the full sanitizer rewrites
its body: the non-ASCII normalization runs over the whole document before
segmentation, so the output `$--$` no longer contains the construct's
bytes. -/
theorem c2_counterexample :
    piecesOf ['$', Char.ofNat 0x2013, '$'] =
      [⟨false, []⟩, ⟨true, ['$', Char.ofNat 0x2013, '$']⟩, ⟨false, []⟩]
    ∧ clean_latex_file ['$', Char.ofNat 0x2013, '$'] false = ("$--$").data
    ∧ hasSub ['$', Char.ofNat 0x2013, '$']
        (clean_latex_file ['$', Char.ofNat 0x2013, '$'] false) = false := by
  exact ⟨by decide, by decide, by decide⟩

/-! ### C4: span awareness of the repair passes -/

theorem litCi_head_lt : ∀ (os u : List Char),
    litCi ('<' :: os) u = true → ∃ rest, u = '<' :: rest := by
  intro os u h
  cases u with
  | nil => exact absurd h (by simp [litCi])
  | cons c cs =>
    refine ⟨cs, ?_⟩
    simp only [litCi, Bool.and_eq_true] at h
    have : c = '<' := by
      have h1 := h.1
      simp only [charCi] at h1
      have : ('a' ≤ '<' : Bool) = false := by decide
      simp [this] at h1
      exact h1
    rw [this]

theorem ciLitM_head_lt {os u : List Char} {n : Nat}
    (h : ciLitM ('<' :: os) u = some n) : ∃ rest, u = '<' :: rest := by
  by_cases hc : litCi ('<' :: os) u = true
  · exact litCi_head_lt os u hc
  · simp [ciLitM, hc] at h

theorem ruleTagPair_head_lt {os closing pre post u : List Char}
    {n : Nat} {repl : List Char}
    (h : ruleTagPair ('<' :: os) closing pre post u = some (n, repl)) :
    ∃ rest, u = '<' :: rest := by
  simp only [ruleTagPair, bind, Option.bind] at h
  cases hlit : ciLitM ('<' :: os) u with
  | none => rw [hlit] at h; exact absurd h (by simp)
  | some k => exact ciLitM_head_lt hlit

theorem ruleBr_head_lt {u : List Char} {n : Nat} {repl : List Char}
    (h : ruleBr u = some (n, repl)) : ∃ rest, u = '<' :: rest := by
  simp only [ruleBr, bind, Option.bind] at h
  cases hlit : ciLitM (("<br").data) u with
  | none => rw [hlit] at h; exact absurd h (by simp)
  | some k =>
    have hbr : ("<br").data = '<' :: ("br").data := by decide
    rw [hbr] at hlit
    exact ciLitM_head_lt hlit

theorem ruleLit_head_lt {os repl u : List Char} {n : Nat} {r : List Char}
    (h : ruleLit ('<' :: os) repl u = some (n, r)) : ∃ rest, u = '<' :: rest := by
  simp only [ruleLit] at h
  cases hlit : ciLitM ('<' :: os) u with
  | none => rw [hlit] at h; exact absurd h (by simp)
  | some k => exact ciLitM_head_lt hlit

theorem ruleBlock_head_lt {u : List Char} {n : Nat} {repl : List Char}
    (h : ruleBlock u = some (n, repl)) : ∃ rest, u = '<' :: rest := by
  cases u with
  | nil => exact absurd h (by simp [ruleBlock])
  | cons c cs =>
    refine ⟨cs, ?_⟩
    by_cases hc : c = '<'
    · rw [hc]
    · exfalso
      have hnone : ruleBlock (c :: cs) = none := by
        unfold ruleBlock
        split
        · rename_i heq
          injection heq with h1 _
          exact absurd h1 hc
        · rfl
      rw [hnone] at h
      exact Option.noConfusion h

theorem rules_head_lt : ∀ r ∈ HTML_RULES, ∀ (u : List Char) (n : Nat)
    (repl : List Char), r.rule u = some (n, repl) → ∃ rest, u = '<' :: rest := by
  intro r hr u n repl h
  simp only [HTML_RULES, List.mem_cons, List.not_mem_nil, or_false] at hr
  rcases hr with rfl | rfl | rfl | rfl | rfl | rfl | rfl | rfl | rfl | rfl
  · exact ruleTagPair_head_lt h
  · exact ruleTagPair_head_lt h
  · exact ruleTagPair_head_lt h
  · exact ruleBr_head_lt h
  · exact ruleLit_head_lt h
  · exact ruleLit_head_lt h
  · exact ruleTagPair_head_lt h
  · exact ruleTagPair_head_lt h
  · exact ruleTagPair_head_lt h
  · exact ruleBlock_head_lt h

theorem no_lt_countMatches_zero
    (rule : List Char → Option (Nat × List Char))
    (hrule : ∀ (u : List Char) (n : Nat) (repl : List Char),
      rule u = some (n, repl) → ∃ rest, u = '<' :: rest) :
    ∀ (fuel : Nat) (s : List Char), '<' ∉ s →
      countMatchesLoop rule fuel s = 0 ∧ subAllLoop rule fuel s = s := by
  intro fuel
  induction fuel with
  | zero => intro s _; exact ⟨rfl, rfl⟩
  | succ f ih =>
    intro s hs
    cases s with
    | nil => exact ⟨rfl, rfl⟩
    | cons c rest =>
      cases hr : rule (c :: rest) with
      | some pr =>
        exfalso
        obtain ⟨r', hr'⟩ := hrule (c :: rest) pr.1 pr.2 (by rw [hr])
        injection hr' with h1 _
        subst h1
        exact hs (List.mem_cons_self _ _)
      | none =>
        have hrest : '<' ∉ rest := fun hm => hs (List.mem_cons_of_mem _ hm)
        have := ih rest hrest
        constructor
        · simp only [countMatchesLoop, hr]; exact this.1
        · simp only [subAllLoop, hr]; rw [this.2]

theorem fix_html_tags_no_lt {content : List Char} (h : '<' ∉ content) :
    fix_html_tags content = (content, []) := by
  have key : ∀ (rs : List HtmlRule),
      (∀ r ∈ rs, ∀ (u : List Char) (n : Nat) (repl : List Char),
        r.rule u = some (n, repl) → ∃ rest, u = '<' :: rest) →
      ∀ (fixes : List LatexFix),
        rs.foldl (fun acc r =>
          let n := countMatchesLoop r.rule (acc.1.length + 1) acc.1
          if n > 0 then
            (subAllLoop r.rule (acc.1.length + 1) acc.1,
             acc.2 ++ [⟨r.name, ("Replaced ").data ++ natText n ++ (" HTML ").data ++
                        r.name ++ (" tags").data⟩])
          else acc) (content, fixes) = (content, fixes) := by
    intro rs
    induction rs with
    | nil => intro _ fixes; rfl
    | cons r t ih =>
      intro hall fixes
      have h0 := no_lt_countMatches_zero r.rule (hall r (List.mem_cons_self _ _))
        (content.length + 1) content h
      simp only [List.foldl_cons, h0.1, gt_iff_lt, Nat.lt_irrefl, if_false]
      exact ih (fun r' hr' => hall r' (List.mem_cons_of_mem _ hr')) fixes
  exact key HTML_RULES rules_head_lt []

/-- C4 amended: the repair passes of `fix_latex_errors.py` are not
span-aware — the HTML-tag pass substitutes over the whole document and does
rewrite content inside non-Plain spans (see the counterexample).  What
holds: the placeholder math-mode pass rewrites nothing, and the HTML-tag
pass leaves any document without a `<` character unchanged with zero
fixes. -/
theorem c4_repair_passes_amended :
    (∀ content : List Char, fix_missing_math_mode content = (content, []))
    ∧ (∀ content : List Char, '<' ∉ content → fix_html_tags content = (content, [])) := by
  exact ⟨fun _ => rfl, fun _ h => fix_html_tags_no_lt h⟩

theorem c4_amended_witness :
    fix_missing_math_mode (("a_b").data) = ((("a_b").data), [])
    ∧ ('<' ∉ ("a_b").data ∧ fix_html_tags (("a_b").data) = ((("a_b").data), [])) :=
  ⟨c4_repair_passes_amended.1 (("a_b").data),
   by decide,
   c4_repair_passes_amended.2 (("a_b").data) (by decide)⟩

/-- C4 counterexample: the document `$x<b>y</b>$` is one protected
(inline-math) span of the Segmenter, yet the HTML-tag pass rewrites the tag
inside it. -/
theorem c4_counterexample :
    piecesOf (("$x<b>y</b>$").data) =
      [⟨false, []⟩, ⟨true, ("$x<b>y</b>$").data⟩, ⟨false, []⟩]
    ∧ fix_html_tags (("$x<b>y</b>$").data) =
        (("$x\\textbf").data ++ [lbr, 'y', rbr, '$'],
         [⟨("html_bold").data, ("Replaced 1 HTML html_bold tags").data⟩])
    ∧ ("$x\\textbf").data ++ [lbr, 'y', rbr, '$'] ≠ ("$x<b>y</b>$").data := by
  exact ⟨by decide, by decide, by decide⟩

/-! ### C6: environment balance validation -/

theorem length_filterMap_eq_countP {α β : Type} (f : α → Option β) :
    ∀ L : List α, (L.filterMap f).length = L.countP (fun x => (f x).isSome) := by
  intro L
  induction L with
  | nil => rfl
  | cons a t ih =>
    cases hfa : f a with
    | none => simp [List.filterMap_cons, hfa, ih, List.countP_cons]
    | some b => simp [List.filterMap_cons, hfa, ih, List.countP_cons]

theorem imbalance_countP (begins ends : List (List Char)) (env : List Char) :
    ∀ L : List (List Char), L.Nodup →
    ((L.filterMap (fun e =>
        if begins.count e ≠ ends.count e then
          some (e, begins.count e, ends.count e)
        else none)).countP (fun i => i.1 == env)) =
      if env ∈ L ∧ begins.count env ≠ ends.count env then 1 else 0 := by
  intro L
  induction L with
  | nil => intro _; simp
  | cons e t ih =>
    intro hnd
    obtain ⟨hnotmem, hndt⟩ := List.nodup_cons.mp hnd
    rw [List.filterMap_cons]
    by_cases hdiff : begins.count e ≠ ends.count e
    · rw [if_pos hdiff, List.countP_cons, ih hndt]
      by_cases henv : env = e
      · subst henv
        have h1 : ¬(env ∈ t ∧ begins.count env ≠ ends.count env) :=
          fun hc => hnotmem hc.1
        have h2 : env ∈ env :: t ∧ begins.count env ≠ ends.count env :=
          ⟨List.mem_cons_self _ _, hdiff⟩
        simp only [beq_self_eq_true, if_true, if_neg h1, if_pos h2]
      · have hp : ((e, begins.count e, ends.count e).1 == env) = false := by
          simp only [beq_eq_false_iff_ne, ne_eq]
          exact fun hh => henv hh.symm
        have hmem : env ∈ e :: t ↔ env ∈ t :=
          ⟨fun hm => (List.mem_cons.mp hm).resolve_left (fun hh => henv hh),
           List.mem_cons_of_mem _⟩
        rw [hp]
        simp only [Bool.false_eq_true, if_false, Nat.add_zero]
        exact if_congr (and_congr_left' hmem.symm) rfl rfl
    · rw [if_neg hdiff, ih hndt]
      by_cases henv : env = e
      · subst henv
        have h1 : ¬(env ∈ t ∧ begins.count env ≠ ends.count env) :=
          fun hc => hdiff hc.2
        have h2 : ¬(env ∈ env :: t ∧ begins.count env ≠ ends.count env) :=
          fun hc => hdiff hc.2
        rw [if_neg h1, if_neg h2]
      · have hmem : env ∈ e :: t ↔ env ∈ t :=
          ⟨fun hm => (List.mem_cons.mp hm).resolve_left (fun hh => henv hh),
           List.mem_cons_of_mem _⟩
        exact if_congr (and_congr_left' hmem.symm) rfl rfl

/-- C6 amended: the balance scan recognizes only `\begin{name}` /
`\end{name}` whose name is a nonempty `\w+` run followed directly by `}` —
starred variants such as `figure*` are never matched (see the
counterexample).  For the names it does extract: exactly one imbalance
finding, carrying both counts, per name whose begin/end counts differ; the
number of findings is the number of such names (so equal counts everywhere
produce none); the spec's `figure` example yields exactly
`(figure, 2, 1)`. -/
theorem c6_balance_validator_amended :
    (∀ s env : List Char,
      (envImbalanceIssues s).countP (fun i => i.1 == env) =
        if env ∈ (beginEnvNames s ++ endEnvNames s).dedup ∧
            (beginEnvNames s).count env ≠ (endEnvNames s).count env
        then 1 else 0)
    ∧ (∀ s : List Char, (envImbalanceIssues s).length =
        ((beginEnvNames s ++ endEnvNames s).dedup).countP
          (fun env => !((beginEnvNames s).count env == (endEnvNames s).count env)))
    ∧ envImbalanceIssues (envBegin (("figure").data) ++ 'A' ::
        envEnd (("figure").data) ++ envBegin (("figure").data)) =
        [(("figure").data, 2, 1)]
    ∧ envImbalanceIssues (envBegin (("figure").data) ++ envEnd (("figure").data)) =
        [] := by
  refine ⟨?_, ?_, by decide, by decide⟩
  · intro s env
    unfold envImbalanceIssues
    exact imbalance_countP (beginEnvNames s) (endEnvNames s) env
      ((beginEnvNames s ++ endEnvNames s).dedup) (List.nodup_dedup _)
  · intro s
    unfold envImbalanceIssues
    rw [length_filterMap_eq_countP]
    apply List.countP_congr
    intro e _
    by_cases hdiff : (beginEnvNames s).count e ≠ (endEnvNames s).count e
    · simp [hdiff]
    · simp only [ne_eq, Decidable.not_not] at hdiff
      simp [hdiff]

/-- C6 counterexample: a document with one `\begin{figure*}` token and no
`\end{figure*}` token — the claim requires one imbalance finding for
`figure*`, but the `\w+` scan of the code cannot match the starred name and
the validator reports nothing. -/
theorem c6_counterexample :
    countSub (envBegin (("figure*").data)) (envBegin (("figure*").data)) = 1
    ∧ countSub (envEnd (("figure*").data)) (envBegin (("figure*").data)) = 0
    ∧ envImbalanceIssues (envBegin (("figure*").data)) = [] := by
  exact ⟨by decide, by decide, by decide⟩

/-! ### C9: the diagnostic classifier is total -/

/-- The types the first loop of `parse_errors` can assign. -/
def errTypesL : List (List Char) :=
  [ ("undefined_command").data, ("missing_math").data, ("missing_brace").data,
    ("undefined_env").data, ("missing_file").data, ("misplaced_tab").data,
    ("other").data ]

theorem classify_mem_errTypes (msg : List Char) : classifyError msg ∈ errTypesL := by
  unfold classifyError
  split_ifs <;> simp [errTypesL]

theorem errLoop_mem : ∀ (ls : List (List Char)) (l : List Char), l ∈ ls →
    startsL errMark l = true →
    (⟨classifyError (l.drop 2), l.drop 2, []⟩ : PIssue) ∈ errLoop ls := by
  intro ls
  induction ls with
  | nil => intro l h; exact absurd h (List.not_mem_nil _)
  | cons a t ih =>
    intro l hmem hst
    rcases List.mem_cons.mp hmem with rfl | hmem'
    · simp only [errLoop, if_pos hst]
      exact List.mem_cons_self _ _
    · simp only [errLoop]
      split
      · exact List.mem_cons_of_mem _ (ih l hmem' hst)
      · exact ih l hmem' hst

theorem errLoop_types : ∀ (ls : List (List Char)) (i : PIssue), i ∈ errLoop ls →
    i.typ ∈ errTypesL := by
  intro ls
  induction ls with
  | nil => intro i h; exact absurd h (List.not_mem_nil _)
  | cons a t ih =>
    intro i hmem
    simp only [errLoop] at hmem
    split at hmem
    · rcases List.mem_cons.mp hmem with rfl | hmem'
      · exact classify_mem_errTypes _
      · exact ih i hmem'
    · exact ih i hmem

theorem errLoop_length : ∀ ls : List (List Char),
    (errLoop ls).length = ls.countP (fun l => startsL errMark l) := by
  intro ls
  induction ls with
  | nil => rfl
  | cons a t ih =>
    simp only [errLoop, List.countP_cons]
    split
    · rename_i h; simp [ih, h]
    · rename_i h
      simp only [Bool.not_eq_true] at h
      simp [ih, h]

theorem warnLoop_types : ∀ (ls : List (List Char)) (i : PIssue), i ∈ warnLoop ls →
    i.typ ∉ errTypesL := by
  intro ls
  induction ls with
  | nil => intro i h; exact absurd h (List.not_mem_nil _)
  | cons a t ih =>
    intro i hmem
    simp only [warnLoop] at hmem
    split at hmem
    · rcases List.mem_cons.mp hmem with rfl | hmem'
      · exact (by decide : (("undefined_citation").data) ∉ errTypesL)
      · exact ih i hmem'
    · split at hmem
      · rcases List.mem_cons.mp hmem with rfl | hmem'
        · exact (by decide : (("undefined_reference").data) ∉ errTypesL)
        · exact ih i hmem'
      · exact ih i hmem

theorem warnLoop_mem_cit : ∀ (ls : List (List Char)) (l : List Char), l ∈ ls →
    (hasSub (("Citation").data) l && hasSub (("undefined").data) l) = true →
    (⟨("undefined_citation").data, stripPy l, extractKey l⟩ : PIssue) ∈ warnLoop ls := by
  intro ls
  induction ls with
  | nil => intro l h; exact absurd h (List.not_mem_nil _)
  | cons a t ih =>
    intro l hmem hcond
    rcases List.mem_cons.mp hmem with rfl | hmem'
    · simp only [warnLoop, if_pos hcond]
      exact List.mem_cons_self _ _
    · simp only [warnLoop]
      split
      · exact List.mem_cons_of_mem _ (ih l hmem' hcond)
      · split
        · exact List.mem_cons_of_mem _ (ih l hmem' hcond)
        · exact ih l hmem' hcond

theorem warnLoop_mem_ref : ∀ (ls : List (List Char)) (l : List Char), l ∈ ls →
    (hasSub (("Reference").data) l && hasSub (("undefined").data) l) = true →
    (hasSub (("Citation").data) l && hasSub (("undefined").data) l) = false →
    (⟨("undefined_reference").data, stripPy l, extractKey l⟩ : PIssue) ∈ warnLoop ls := by
  intro ls
  induction ls with
  | nil => intro l h; exact absurd h (List.not_mem_nil _)
  | cons a t ih =>
    intro l hmem href hcit
    rcases List.mem_cons.mp hmem with rfl | hmem'
    · simp only [warnLoop, hcit, Bool.false_eq_true, if_false, if_pos href]
      exact List.mem_cons_self _ _
    · simp only [warnLoop]
      split
      · exact List.mem_cons_of_mem _ (ih l hmem' href hcit)
      · split
        · exact List.mem_cons_of_mem _ (ih l hmem' href hcit)
        · exact ih l hmem' href hcit

/-- C9 (diagnostic classifier totality): every log line beginning with the
error marker `! ` produces exactly one error issue whose message is the
remainder of the line and whose type is the ordered substring
classification (defaulting to `other`), so the count of error issues
equals the count of marker lines; citation/reference `undefined` warnings
anywhere in the log each produce an issue carrying the key extracted from
the quoted text. -/
theorem c9_diagnostic_classifier :
    (∀ log : List Char,
      (parse_errors log).countP (fun i => decide (i.typ ∈ errTypesL)) =
        (splitNl log).countP (fun l => startsL errMark l))
    ∧ (∀ (log l : List Char), l ∈ splitNl log → startsL errMark l = true →
        (⟨classifyError (l.drop 2), l.drop 2, []⟩ : PIssue) ∈ parse_errors log)
    ∧ (∀ (log l : List Char), l ∈ splitNl log →
        (hasSub (("Citation").data) l && hasSub (("undefined").data) l) = true →
        (⟨("undefined_citation").data, stripPy l, extractKey l⟩ : PIssue) ∈
          parse_errors log)
    ∧ (∀ (log l : List Char), l ∈ splitNl log →
        (hasSub (("Reference").data) l && hasSub (("undefined").data) l) = true →
        (hasSub (("Citation").data) l && hasSub (("undefined").data) l) = false →
        (⟨("undefined_reference").data, stripPy l, extractKey l⟩ : PIssue) ∈
          parse_errors log)
    ∧ classifyError (("Undefined control sequence.").data) =
        ("undefined_command").data := by
  refine ⟨?_, ?_, ?_, ?_, by decide⟩
  · intro log
    unfold parse_errors
    rw [List.countP_append]
    have h1 : (errLoop (splitNl log)).countP (fun i => decide (i.typ ∈ errTypesL)) =
        (errLoop (splitNl log)).length := by
      rw [List.countP_eq_length]
      intro i hi
      exact decide_eq_true (errLoop_types _ i hi)
    have h2 : (warnLoop (splitNl log)).countP (fun i => decide (i.typ ∈ errTypesL)) = 0 := by
      rw [List.countP_eq_zero]
      intro i hi
      simpa using warnLoop_types _ i hi
    rw [h1, h2, errLoop_length, Nat.add_zero]
  · intro log l hmem hst
    exact List.mem_append_left _ (errLoop_mem _ l hmem hst)
  · intro log l hmem hcond
    exact List.mem_append_right _ (warnLoop_mem_cit _ l hmem hcond)
  · intro log l hmem href hcit
    exact List.mem_append_right _ (warnLoop_mem_ref _ l hmem href hcit)

def c9log : List Char :=
  ("! Undefined control sequence.\nl.5 no\nLaTeX Warning: Citation ").data ++
  [bquote] ++ ("k1").data ++ [squote] ++ (" on page 1 undefined.").data

theorem c9_witness :
    ((("! Undefined control sequence.").data ∈ splitNl c9log ∧
       startsL errMark (("! Undefined control sequence.").data) = true)
     ∧ (⟨("undefined_command").data, ("Undefined control sequence.").data, []⟩ :
          PIssue) ∈ parse_errors c9log)
    ∧ (parse_errors c9log).countP (fun i => decide (i.typ ∈ errTypesL)) =
        (splitNl c9log).countP (fun l => startsL errMark l) := by
  refine ⟨⟨⟨by decide, by decide⟩, ?_⟩, c9_diagnostic_classifier.1 c9log⟩
  have h := c9_diagnostic_classifier.2.1 c9log (("! Undefined control sequence.").data)
    (by decide) (by decide)
  have hc : classifyError (("Undefined control sequence.").data) =
      ("undefined_command").data := by decide
  have he : (("! Undefined control sequence.").data).drop 2 =
      ("Undefined control sequence.").data := by decide
  rw [he, hc] at h
  exact h

/-! ### Occurrence lemmas (`startsL`, `findSub`) -/

theorem startsL_iff_exists : ∀ (t s : List Char),
    startsL t s = true ↔ ∃ u, s = t ++ u := by
  intro t
  induction t with
  | nil => intro s; simp [startsL]
  | cons a t' ih =>
    intro s
    cases s with
    | nil =>
      simp only [startsL]
      constructor
      · intro h; exact absurd h (by simp)
      · rintro ⟨u, hu⟩; exact absurd hu (by simp)
    | cons b u' =>
      simp only [startsL, Bool.and_eq_true, beq_iff_eq]
      rw [ih u']
      constructor
      · rintro ⟨rfl, w, rfl⟩; exact ⟨w, rfl⟩
      · rintro ⟨w, hw⟩
        injection hw with h1 h2
        exact ⟨h1.symm, w, h2⟩

theorem startsL_length_le {t s : List Char} (h : startsL t s = true) :
    t.length ≤ s.length := by
  obtain ⟨u, rfl⟩ := (startsL_iff_exists t s).mp h
  simp

theorem startsL_append_self (t u : List Char) : startsL t (t ++ u) = true :=
  (startsL_iff_exists t (t ++ u)).mpr ⟨u, rfl⟩

theorem startsL_refl (t : List Char) : startsL t t = true := by
  simpa using startsL_append_self t []

theorem startsL_take_imp {t v : List Char} {k : Nat}
    (h : startsL t (v.take k) = true) : startsL t v = true := by
  obtain ⟨u, hu⟩ := (startsL_iff_exists t (v.take k)).mp h
  refine (startsL_iff_exists t v).mpr ⟨u ++ v.drop k, ?_⟩
  conv_lhs => rw [← List.take_append_drop k v]
  rw [hu, List.append_assoc]

theorem startsL_nil_iff (t : List Char) : startsL t [] = true ↔ t = [] := by
  cases t with
  | nil => simp [startsL]
  | cons a t' => simp [startsL]

theorem findSubFrom_shift : ∀ (t s : List Char) (i : Nat),
    findSubFrom t s i = (findSubFrom t s 0).map (· + i) := by
  intro t s
  induction s with
  | nil =>
    intro i
    by_cases h : t.isEmpty <;> simp [findSubFrom, h]
  | cons c rest ih =>
    intro i
    by_cases h : startsL t (c :: rest) = true
    · simp [findSubFrom, h]
    · simp only [findSubFrom, if_neg h]
      rw [ih (i + 1), ih 1]
      cases hf : findSubFrom t rest 0 with
      | none => simp
      | some q => simp [Nat.add_comm, Nat.add_assoc, Nat.add_left_comm]

theorem findSub_cons (t : List Char) (c : Char) (rest : List Char) :
    findSub t (c :: rest) =
      if startsL t (c :: rest) = true then some 0
      else (findSub t rest).map (· + 1) := by
  by_cases h : startsL t (c :: rest) = true
  · simp [findSub, findSubFrom, h]
  · simp only [findSub, findSubFrom, if_neg h]
    exact findSubFrom_shift t rest 1

theorem occAt_cons_succ (t : List Char) (c : Char) (rest : List Char) (r : Nat) :
    occAt t (c :: rest) (r + 1) = occAt t rest r := rfl

/-- `findSub` returns the first occurrence. -/
theorem findSub_spec : ∀ (s t : List Char) (q : Nat), findSub t s = some q →
    occAt t s q = true ∧ ∀ r, r < q → occAt t s r = false := by
  intro s
  induction s with
  | nil =>
    intro t q h
    simp only [findSub, findSubFrom] at h
    by_cases ht : t.isEmpty
    · rw [if_pos ht] at h
      injection h with h'
      subst h'
      refine ⟨?_, fun r hr => absurd hr (Nat.not_lt_zero r)⟩
      have : t = [] := by cases t with | nil => rfl | cons a b => simp at ht
      simp [occAt, this, startsL]
    · rw [if_neg ht] at h; exact Option.noConfusion h
  | cons c rest ih =>
    intro t q h
    rw [findSub_cons] at h
    by_cases hs : startsL t (c :: rest) = true
    · rw [if_pos hs] at h
      injection h with h'
      subst h'
      exact ⟨hs, fun r hr => absurd hr (Nat.not_lt_zero r)⟩
    · rw [if_neg hs] at h
      cases hf : findSub t rest with
      | none => rw [hf] at h; exact Option.noConfusion h
      | some q' =>
        rw [hf] at h
        injection h with h'
        obtain ⟨h1, h2⟩ := ih t q' hf
        subst h'
        refine ⟨h1, ?_⟩
        intro r hr
        cases r with
        | zero => simpa [occAt] using (Bool.not_eq_true _).mp hs
        | succ r' =>
          rw [occAt_cons_succ]
          exact h2 r' (Nat.lt_of_succ_lt_succ hr)

theorem findSub_none : ∀ (s t : List Char), findSub t s = none →
    ∀ r, occAt t s r = false := by
  intro s
  induction s with
  | nil =>
    intro t h r
    simp only [findSub, findSubFrom] at h
    by_cases ht : t.isEmpty
    · rw [if_pos ht] at h; exact Option.noConfusion h
    · have : t ≠ [] := by cases t with | nil => simp at ht | cons a b => simp
      cases t with
      | nil => simp at this
      | cons a b => simp [occAt, startsL]
  | cons c rest ih =>
    intro t h r
    rw [findSub_cons] at h
    by_cases hs : startsL t (c :: rest) = true
    · rw [if_pos hs] at h; exact Option.noConfusion h
    · rw [if_neg hs] at h
      cases hf : findSub t rest with
      | none =>
        cases r with
        | zero => simpa [occAt] using (Bool.not_eq_true _).mp hs
        | succ r' => rw [occAt_cons_succ]; exact ih t hf r'
      | some q' => rw [hf] at h; exact Option.noConfusion h

theorem findSub_of_spec : ∀ (s t : List Char) (q : Nat),
    occAt t s q = true → (∀ r, r < q → occAt t s r = false) →
    findSub t s = some q := by
  intro s t q h1 h2
  cases hf : findSub t s with
  | none => rw [findSub_none s t hf q] at h1; exact Bool.noConfusion h1
  | some q' =>
    obtain ⟨ho, hm⟩ := findSub_spec s t q' hf
    rcases Nat.lt_trichotomy q q' with hlt | rfl | hgt
    · rw [hm q hlt] at h1; exact Bool.noConfusion h1
    · rfl
    · rw [h2 q' hgt] at ho; exact Bool.noConfusion ho

theorem findSub_of_startsL {t s : List Char} (h : startsL t s = true) :
    findSub t s = some 0 :=
  findSub_of_spec s t 0 h (fun r hr => absurd hr (Nat.not_lt_zero r))

theorem hasSub_of_occAt {t s : List Char} {r : Nat} (h : occAt t s r = true) :
    hasSub t s = true := by
  unfold hasSub
  cases hf : findSub t s with
  | none => rw [findSub_none s t hf r] at h; exact Bool.noConfusion h
  | some q => rfl

theorem hasSub_eq_false_of_no_occ {t s : List Char}
    (h : ∀ r, occAt t s r = false) : hasSub t s = false := by
  unfold hasSub
  cases hf : findSub t s with
  | none => rfl
  | some q =>
    obtain ⟨ho, _⟩ := findSub_spec s t q hf
    rw [h q] at ho
    exact Bool.noConfusion ho

/-! ### C10: tables-only mode only rewrites tabular bodies -/

theorem take_append_len : ∀ (a b : List Char) (i : Nat),
    (a ++ b).take (a.length + i) = a ++ b.take i
  | [], b, i => by simp
  | x :: xs, b, i => by
    have h : (x :: xs).length + i = (xs.length + i) + 1 := by
      simp [Nat.succ_add]
    rw [h, List.cons_append, List.take_succ_cons, take_append_len xs b i,
      List.cons_append]

theorem drop_append_len : ∀ (a b : List Char) (i : Nat),
    (a ++ b).drop (a.length + i) = b.drop i
  | [], b, i => by simp
  | x :: xs, b, i => by
    have h : (x :: xs).length + i = (xs.length + i) + 1 := by
      simp [Nat.succ_add]
    rw [h, List.cons_append, List.drop_succ_cons, drop_append_len xs b i]

theorem take_len_append (a b : List Char) : (a ++ b).take a.length = a := by
  have h := take_append_len a b 0
  simp only [Nat.add_zero, List.take_zero, List.append_nil] at h
  exact h

theorem drop_len_append (a b : List Char) : (a ++ b).drop a.length = b := by
  have h := drop_append_len a b 0
  simp only [Nat.add_zero, List.drop_zero] at h
  exact h

theorem startsL_decomp {t s : List Char} (h : startsL t s = true) :
    s = t ++ s.drop t.length := by
  obtain ⟨u, rfl⟩ := (startsL_iff_exists t s).mp h
  rw [drop_len_append]

/-- No `\end{tabular}` token can start inside a leading `\begin{tabular}`. -/
theorem end_not_in_begin_prefix (rest : List Char) :
    ∀ r, r < 15 → occAt endTabular (beginTabular ++ rest) r = false := by
  intro r hr
  interval_cases r <;> rfl

/-- The per-part transformation of tables-only mode. -/
def tabPartTransform (part : List Char) : List Char :=
  if startsL beginTabular part then escape_special_chars_in_table part else part

theorem tabSplitLoop_flatten : ∀ (fuel : Nat) (s : List Char),
    (tabSplitLoop fuel s).flatten = s := by
  intro fuel
  induction fuel with
  | zero => intro s; simp [tabSplitLoop]
  | succ f ih =>
    intro s
    unfold tabSplitLoop
    split
    · simp
    · rename_i p hp
      split
      · simp
      · rename_i q hq
        simp only [List.flatten_cons, ih]
        have hsplit : s.drop (p + (beginTabular.length + q + endTabular.length)) =
            (s.drop p).drop (beginTabular.length + q + endTabular.length) := by
          rw [List.drop_drop]
        rw [hsplit, List.take_append_drop, List.take_append_drop]

/-- The one claim-relevant fact about a part that starts with the begin
delimiter and contains no end token: the escape leaves it unchanged. -/
theorem escape_id_of_no_end {part : List Char}
    (h : hasSub endTabular part = false) :
    escape_special_chars_in_table part = part := by
  unfold escape_special_chars_in_table
  by_cases hb : hasSub beginTabular part = true
  · rw [hb]
    simp [h]
  · simp only [Bool.not_eq_true] at hb
    rw [hb]
    simp

/-- Structure of the escape on a part of the form
`\begin{tabular} ++ mid ++ \end{tabular}` where `mid` contains no end
token: only `mid` is transformed, the delimiters and everything outside
stay verbatim. -/
theorem escape_on_matched (mid : List Char)
    (hmid : ∀ r, r < mid.length →
      occAt endTabular (mid ++ endTabular) r = false) :
    escape_special_chars_in_table (beginTabular ++ (mid ++ endTabular)) =
      beginTabular ++
        process_latex_text_and_math escape_table_chars id mid ++ endTabular := by
  have hb0 : occAt beginTabular (beginTabular ++ (mid ++ endTabular)) 0 = true := by
    simpa [occAt] using startsL_append_self beginTabular (mid ++ endTabular)
  have hbsub : hasSub beginTabular (beginTabular ++ (mid ++ endTabular)) = true :=
    hasSub_of_occAt hb0
  have hocc_end : occAt endTabular (mid ++ endTabular) mid.length = true := by
    unfold occAt
    rw [drop_len_append]
    exact startsL_refl _
  have hesub : hasSub endTabular (beginTabular ++ (mid ++ endTabular)) = true := by
    refine hasSub_of_occAt (t := endTabular)
      (r := beginTabular.length + mid.length) ?_
    unfold occAt
    rw [drop_append_len]
    exact hocc_end
  have hfb : findSub beginTabular (beginTabular ++ (mid ++ endTabular)) = some 0 :=
    findSub_of_startsL (startsL_append_self _ _)
  have hfe : findSub endTabular (mid ++ endTabular) = some mid.length :=
    findSub_of_spec _ _ _ hocc_end hmid
  have hsplit1 : splitOnceAt beginTabular (beginTabular ++ (mid ++ endTabular)) =
      ([], mid ++ endTabular) := by
    unfold splitOnceAt
    rw [hfb]
    simp only [List.take_zero, Nat.zero_add]
    rw [drop_len_append]
  have hsplit2 : splitOnceAt endTabular (mid ++ endTabular) = (mid, []) := by
    unfold splitOnceAt
    rw [hfe]
    simp only [take_len_append, drop_append_len, List.drop_length]
  unfold escape_special_chars_in_table
  rw [hbsub, hesub]
  simp only [Bool.not_true, Bool.false_eq_true, if_false, hsplit1, hsplit2,
    List.nil_append, List.append_nil]

theorem tabSplitLoop_parts : ∀ (fuel : Nat) (s : List Char), s.length < fuel →
    ∀ part ∈ tabSplitLoop fuel s,
      tabPartTransform part = part ∨
      ∃ mid, part = beginTabular ++ (mid ++ endTabular) ∧
        tabPartTransform part =
          beginTabular ++
            process_latex_text_and_math escape_table_chars id mid ++ endTabular := by
  intro fuel
  induction fuel with
  | zero => intro s hs; exact absurd hs (Nat.not_lt_zero _)
  | succ f ih =>
    intro s hs part hpart
    unfold tabSplitLoop at hpart
    split at hpart
    · rename_i h1
      rcases List.mem_singleton.mp hpart with rfl
      left
      unfold tabPartTransform
      have hns : startsL beginTabular part = false := by
        by_cases hc : startsL beginTabular part = true
        · have h0 : occAt beginTabular part 0 = true := by simpa [occAt] using hc
          rw [findSub_none part beginTabular h1 0] at h0
          exact Bool.noConfusion h0
        · exact (Bool.not_eq_true _).mp hc
      rw [hns]
      simp
    · rename_i p h1
      obtain ⟨hoccb, hminb⟩ := findSub_spec s beginTabular p h1
      have hdecomp : s.drop p = beginTabular ++ s.drop (p + beginTabular.length) := by
        have hx := startsL_decomp (t := beginTabular) (s := s.drop p) hoccb
        rwa [List.drop_drop] at hx
      split at hpart
      · rename_i h2
        rcases List.mem_singleton.mp hpart with rfl
        left
        unfold tabPartTransform
        by_cases hsb : startsL beginTabular part = true
        · rw [hsb]
          simp only [if_true]
          have hp0 : p = 0 := by
            by_contra hne
            have h0 : occAt beginTabular part 0 = true := by simpa [occAt] using hsb
            have hm := hminb 0 (Nat.pos_of_ne_zero hne)
            rw [hm] at h0
            exact Bool.noConfusion h0
          subst hp0
          have hdecomp0 : part = beginTabular ++ part.drop beginTabular.length := by
            simpa using hdecomp
          have hnoend : ∀ r, occAt endTabular part r = false := by
            intro r
            by_cases hr : r < 15
            · rw [hdecomp0]
              exact end_not_in_begin_prefix _ r hr
            · have h15 : beginTabular.length = 15 := by decide
              have hr' : r = beginTabular.length + (r - 15) := by omega
              rw [hdecomp0, hr']
              unfold occAt
              rw [drop_append_len]
              have hnone := findSub_none _ endTabular (by simpa using h2) (r - 15)
              simpa [occAt] using hnone
          exact escape_id_of_no_end (hasSub_eq_false_of_no_occ hnoend)
        · rw [(Bool.not_eq_true _).mp hsb]
          simp
      · rename_i q h2
        obtain ⟨hocce, hmine⟩ := findSub_spec _ endTabular q h2
        set u := s.drop (p + beginTabular.length) with hu
        clear_value u
        have hqlen : q + endTabular.length ≤ u.length := by
          have h13 : endTabular.length ≤ (u.drop q).length :=
            startsL_length_le hocce
          rw [List.length_drop] at h13
          have hel : endTabular.length = 13 := by decide
          omega
        have hmidlen : (u.take q).length = q := by
          rw [List.length_take]
          omega
        have humid : u.take (q + endTabular.length) = u.take q ++ endTabular := by
          have hdec : u.drop q = endTabular ++ u.drop (q + endTabular.length) := by
            have hx := startsL_decomp (t := endTabular) (s := u.drop q) hocce
            rwa [List.drop_drop] at hx
          rw [List.take_add, hdec, take_len_append]
        rcases List.mem_cons.mp hpart with rfl | hpart'
        · left
          unfold tabPartTransform
          have hns : startsL beginTabular (s.take p) = false := by
            by_cases hc : startsL beginTabular (s.take p) = true
            · exfalso
              have h0 : startsL beginTabular s = true := startsL_take_imp hc
              have hp0 : p = 0 := by
                by_contra hne
                have hm := hminb 0 (Nat.pos_of_ne_zero hne)
                simp only [occAt, List.drop_zero] at hm
                rw [hm] at h0
                exact Bool.noConfusion h0
              subst hp0
              rw [List.take_zero] at hc
              exact Bool.noConfusion hc
            · exact (Bool.not_eq_true _).mp hc
          rw [hns]
          simp
        · rcases List.mem_cons.mp hpart' with rfl | hpart''
          · right
            have hpeq : (s.drop p).take
                (beginTabular.length + q + endTabular.length) =
                beginTabular ++ (u.take q ++ endTabular) := by
              rw [hdecomp]
              have hblen : beginTabular.length + (q + endTabular.length) =
                  beginTabular.length + q + endTabular.length := by omega
              rw [← hblen, take_append_len, humid]
            refine ⟨u.take q, hpeq, ?_⟩
            rw [hpeq]
            unfold tabPartTransform
            rw [startsL_append_self]
            simp only [if_true]
            refine escape_on_matched (u.take q) ?_
            intro r hr
            rw [hmidlen] at hr
            by_cases hocc : occAt endTabular (u.take q ++ endTabular) r = true
            · exfalso
              have htr : u.take q ++ endTabular = u.take (q + endTabular.length) :=
                humid.symm
              rw [htr] at hocc
              unfold occAt at hocc
              rw [List.drop_take] at hocc
              have hst : startsL endTabular (u.drop r) = true :=
                startsL_take_imp hocc
              have hm := hmine r hr
              simp only [occAt] at hm
              rw [hm] at hst
              exact Bool.noConfusion hst
            · exact (Bool.not_eq_true _).mp hocc
          · have hsl : 15 ≤ s.length := by
              have hx := startsL_length_le hoccb
              rw [List.length_drop] at hx
              have hbl : beginTabular.length = 15 := by decide
              omega
            have hrec : (s.drop
                (p + (beginTabular.length + q + endTabular.length))).length < f := by
              rw [List.length_drop]
              have hbl : beginTabular.length = 15 := by decide
              have hel : endTabular.length = 13 := by decide
              omega
            exact ih _ hrec part hpart''

/-- C10 (tables-only frame): `clean_latex_file` in tables-only mode splits
the document into the `\begin{tabular}..\end{tabular}` regions and the
text around them; the around-parts are emitted byte-identically, and each
matched region keeps its two delimiters verbatim, only its body going
through the table-cell escaping; a document with no `\begin{tabular}` at
all is returned exactly unchanged. -/
theorem c10_tables_only_frame :
    ∀ s : List Char,
      (tabSplit s).flatten = s
      ∧ clean_latex_file s true = ((tabSplit s).map tabPartTransform).flatten
      ∧ (∀ part ∈ tabSplit s,
          tabPartTransform part = part ∨
          ∃ mid, part = beginTabular ++ (mid ++ endTabular) ∧
            tabPartTransform part =
              beginTabular ++
                process_latex_text_and_math escape_table_chars id mid ++ endTabular)
      ∧ (hasSub beginTabular s = false → clean_latex_file s true = s) := by
  intro s
  refine ⟨tabSplitLoop_flatten _ s, rfl, ?_, ?_⟩
  · exact tabSplitLoop_parts (s.length + 1) s (Nat.lt_succ_self _)
  · intro hnone
    have hfn : findSub beginTabular s = none := by
      unfold hasSub at hnone
      cases hf : findSub beginTabular s with
      | none => rfl
      | some p => rw [hf] at hnone; exact Bool.noConfusion hnone
    have hsplit : tabSplit s = [s] := by
      unfold tabSplit tabSplitLoop
      rw [hfn]
    have hns : startsL beginTabular s = false := by
      by_cases hc : startsL beginTabular s = true
      · have h0 : occAt beginTabular s 0 = true := by simpa [occAt] using hc
        rw [findSub_none s beginTabular hfn 0] at h0
        exact Bool.noConfusion h0
      · exact (Bool.not_eq_true _).mp hc
    show ((tabSplit s).map tabPartTransform).flatten = s
    rw [hsplit]
    simp [tabPartTransform, hns]

theorem c10_witness :
    hasSub beginTabular (("no tables & x_1 here").data) = false
    ∧ clean_latex_file (("no tables & x_1 here").data) true =
        ("no tables & x_1 here").data :=
  ⟨by decide,
   (c10_tables_only_frame (("no tables & x_1 here").data)).2.2.2 (by decide)⟩

/-! ### C8: missing-figure commenting -/

/-- `\includegraphics{a}`. -/
def figLineA : List Char := igIntro ++ [lbr, 'a', rbr]

/-- `\includegraphics{b}`. -/
def figLineB : List Char := igIntro ++ [lbr, 'b', rbr]

def c8pad : List Char := List.replicate 30 'z'

/-- Two missing-figure lines separated by a 30-character text line. -/
def c8doc : List Char := figLineA ++ '\n' :: c8pad ++ '\n' :: figLineB ++ ['\n']

/-- C8: the claim holds for a single missing figure and for the
no-missing-figure case, but fails when several distinct lines reference
missing figures: the `re.finditer` match positions are computed on the
original content while the commented content grows, so the second match's
stale offsets select the wrong line.  On `c8doc` (with no file present on
the modelled filesystem) the pass comments out the padding line instead of
the second figure line: the output contains the marker before the padding
text, the second `\includegraphics` line is never prefixed, yet two fixes
are recorded. -/
theorem c8_missing_figures_bug :
    (fix_missing_figures (fun _ => false) (".").data c8doc).1 =
      commentMarker ++ figLineA ++ '\n' ::
        commentMarker ++ c8pad ++ '\n' :: figLineB ++ ['\n']
    ∧ (fix_missing_figures (fun _ => false) (".").data c8doc).2 =
        [⟨("comment_missing_figure").data,
          ("Commented out missing figure: ").data ++ ['a']⟩,
         ⟨("comment_missing_figure").data,
          ("Commented out missing figure: ").data ++ ['b']⟩]
    ∧ hasSub (commentMarker ++ figLineB)
        (fix_missing_figures (fun _ => false) (".").data c8doc).1 = false
    ∧ hasSub (commentMarker ++ c8pad)
        (fix_missing_figures (fun _ => false) (".").data c8doc).1 = true
    ∧ fix_missing_figures (fun _ => true) (".").data c8doc = (c8doc, [])
    ∧ (fix_missing_figures (fun _ => false) (".").data
        (igIntro ++ lbr :: ("plots/fig1").data ++ [rbr])).1 =
      commentMarker ++ igIntro ++ lbr :: ("plots/fig1").data ++ [rbr] := by
  exact ⟨by decide, by decide, by decide, by decide, by decide, by decide⟩

/-! ### C7: occurrence counting for the environment-mismatch repair

The removal loop of `fix_mismatched_environments` deletes the last
occurrence of `\end{env}`.  The correctness argument rests on the shape of
these tokens: they start with a backslash and contain no other backslash
and no whitespace, so distinct occurrences never overlap, removals of one
token never destroy occurrences of another, and the `rstrip`+append steps
never lose occurrences. -/

def occSet (t s : List Char) : Finset Nat :=
  (Finset.range (s.length + 1)).filter (fun p => occAt t s p = true)

def occCount (t s : List Char) : Nat := (occSet t s).card

theorem mem_occSet {t s : List Char} {p : Nat} :
    p ∈ occSet t s ↔ p < s.length + 1 ∧ occAt t s p = true := by
  simp [occSet, Finset.mem_filter, Finset.mem_range]

theorem occAt_lt_length {t s : List Char} {p : Nat} (ht : t ≠ [])
    (h : occAt t s p = true) : p < s.length := by
  have h1 := startsL_length_le h
  rw [List.length_drop] at h1
  have h2 : 1 ≤ t.length := by
    cases t with
    | nil => exact absurd rfl ht
    | cons a b => simp
  omega

theorem mem_occSet_of_occ {t s : List Char} {p : Nat} (ht : t ≠ [])
    (h : occAt t s p = true) : p ∈ occSet t s :=
  mem_occSet.mpr ⟨by have := occAt_lt_length ht h; omega, h⟩

theorem occAt_getQ {t s : List Char} {p : Nat} (h : occAt t s p = true) :
    ∀ i, i < t.length → s.get? (p + i) = t.get? i := by
  obtain ⟨u, hu⟩ := (startsL_iff_exists _ _).mp h
  intro i hi
  have h1 : (s.drop p).get? i = s.get? (p + i) := List.get?_drop s p i
  rw [← h1, hu, List.get?_append hi]

/-- Occurrences of a backslash-headed, backslash-free-tailed token are
pairwise disjoint. -/
theorem occ_disjoint {r t s : List Char} (ht : t = '\\' :: r) (hr : '\\' ∉ r)
    {p q : Nat} (hp : occAt t s p = true) (hq : occAt t s q = true)
    (hpq : p < q) : p + t.length ≤ q := by
  by_contra hc
  push_neg at hc
  have hd : q - p < t.length := by omega
  have h1 : s.get? (p + (q - p)) = t.get? (q - p) := occAt_getQ hp (q - p) hd
  have hpq' : p + (q - p) = q := by omega
  rw [hpq'] at h1
  have h2 : s.get? (q + 0) = t.get? 0 := occAt_getQ hq 0 (by rw [ht]; simp)
  rw [Nat.add_zero, ht] at h2
  simp only [List.get?] at h2
  rw [h2] at h1
  have h3 : t.get? (q - p) = r.get? (q - p - 1) := by
    rw [ht]
    cases hk : q - p with
    | zero => omega
    | succ k => simp
  rw [h3] at h1
  exact hr (List.get?_mem h1.symm)

theorem drop_append_of_le : ∀ (a b : List Char) (n : Nat), n ≤ a.length →
    (a ++ b).drop n = a.drop n ++ b
  | _, b, 0, _ => by simp
  | [], _, n + 1, h => by simp at h
  | x :: xs, b, n + 1, h => by
    simp only [List.cons_append, List.drop_succ_cons]
    exact drop_append_of_le xs b n (by simpa using h)

theorem startsL_append_right {t v w : List Char} (h : startsL t v = true) :
    startsL t (v ++ w) = true := by
  obtain ⟨u, rfl⟩ := (startsL_iff_exists _ _).mp h
  exact (startsL_iff_exists _ _).mpr ⟨u ++ w, by rw [List.append_assoc]⟩

theorem startsL_of_append_le {t v w : List Char} (h : startsL t (v ++ w) = true)
    (hl : t.length ≤ v.length) : startsL t v = true := by
  obtain ⟨u, hu⟩ := (startsL_iff_exists _ _).mp h
  refine (startsL_iff_exists _ _).mpr ⟨u.take (v.length - t.length), ?_⟩
  have h2 : (v ++ w).take v.length = v := take_len_append v w
  rw [hu] at h2
  have h3 : v.length = t.length + (v.length - t.length) := by omega
  rw [h3, take_append_len] at h2
  exact h2.symm

/-- An occurrence entirely left of a removed span survives the splice. -/
theorem occ_splice_left {t s : List Char} {p q tl : Nat}
    (hq : occAt t s q = true) (hle : q + t.length ≤ p) (hp : p ≤ s.length) :
    occAt t (s.take p ++ s.drop (p + tl)) q = true := by
  unfold occAt
  have h1 : q ≤ (s.take p).length := by rw [List.length_take]; omega
  rw [drop_append_of_le _ _ _ h1]
  apply startsL_append_right
  rw [List.drop_take]
  obtain ⟨u, hu⟩ := (startsL_iff_exists _ _).mp hq
  rw [hu]
  have h3 : p - q = t.length + (p - q - t.length) := by omega
  rw [h3, take_append_len]
  exact startsL_append_self t _

/-- An occurrence entirely right of a removed span survives, shifted. -/
theorem occ_splice_right {t s : List Char} {p q tl : Nat}
    (hq : occAt t s q = true) (hge : p + tl ≤ q) (hp : p ≤ s.length) :
    occAt t (s.take p ++ s.drop (p + tl)) (q - tl) = true := by
  unfold occAt
  have hlen : (s.take p).length = p := by rw [List.length_take]; omega
  have h2 : q - tl = (s.take p).length + (q - tl - p) := by omega
  rw [h2, drop_append_len, List.drop_drop]
  have h3 : p + tl + (q - tl - p) = q := by omega
  rw [h3]
  exact hq

/-- Removing the last occurrence loses at most that one occurrence. -/
theorem occCount_remove_last {r t s : List Char} (ht : t = '\\' :: r)
    (hr : '\\' ∉ r) {p : Nat} (hp : occAt t s p = true)
    (hmax : ∀ q, occAt t s q = true → q ≤ p) :
    occCount t s ≤ occCount t (s.take p ++ s.drop (p + t.length)) + 1 := by
  classical
  have htne : t ≠ [] := by rw [ht]; simp
  have hple : p < s.length := occAt_lt_length htne hp
  have hsub : (occSet t s).erase p ⊆ occSet t (s.take p ++ s.drop (p + t.length)) := by
    intro q hq
    obtain ⟨hne, hqs⟩ := Finset.mem_erase.mp hq
    obtain ⟨_, hocc⟩ := mem_occSet.mp hqs
    have hlt : q < p := Nat.lt_of_le_of_ne (hmax q hocc) hne
    have hdis := occ_disjoint ht hr hocc hp hlt
    refine mem_occSet.mpr ⟨?_, occ_splice_left hocc hdis (Nat.le_of_lt hple)⟩
    have hlen : (s.take p ++ s.drop (p + t.length)).length =
        p + (s.length - (p + t.length)) := by
      rw [List.length_append, List.length_take, List.length_drop]
      omega
    omega
  have hmem : p ∈ occSet t s := mem_occSet_of_occ htne hp
  have h1 : occCount t s - 1 = ((occSet t s).erase p).card := by
    rw [Finset.card_erase_of_mem hmem]
    rfl
  have h2 : ((occSet t s).erase p).card ≤
      occCount t (s.take p ++ s.drop (p + t.length)) :=
    Finset.card_le_card hsub
  have h3 : 1 ≤ occCount t s := Finset.card_pos.mpr ⟨p, hmem⟩
  omega

theorem occCount_mono_append (t a b : List Char) :
    occCount t a ≤ occCount t (a ++ b) := by
  classical
  apply Finset.card_le_card
  intro q hq
  obtain ⟨hqr, hocc⟩ := mem_occSet.mp hq
  have hqa : q ≤ a.length := by omega
  refine mem_occSet.mpr ⟨by rw [List.length_append]; omega, ?_⟩
  unfold occAt
  rw [drop_append_of_le _ _ _ hqa]
  exact startsL_append_right hocc

theorem getQ_append_len (a x : List Char) : (a ++ x).get? a.length = x.get? 0 := by
  have h := List.get?_drop (a ++ x) a.length 0
  rw [drop_len_append] at h
  simpa using h.symm

theorem word_not_space {c : Char} (h : isWordChar c = true) : isPySpace c = false := by
  by_contra hc
  rw [Bool.not_eq_false] at hc
  simp only [isPySpace, Bool.or_eq_true, beq_iff_eq] at hc
  rcases hc with ((((rfl | rfl) | rfl) | rfl) | rfl) | rfl <;>
    exact absurd h (by decide)

/-- A nonempty all-word-character environment name. -/
def wordOk (env : List Char) : Prop :=
  env ≠ [] ∧ ∀ c ∈ env, isWordChar c = true

/-- Tail of `envEnd env` after its leading backslash. -/
def envEndTail (env : List Char) : List Char :=
  ("end").data ++ [lbr] ++ env ++ [rbr]

theorem envEnd_cons (env : List Char) : envEnd env = '\\' :: envEndTail env := rfl

theorem envEnd_tail_no_bs {env : List Char} (hw : wordOk env) :
    '\\' ∉ envEndTail env := by
  intro hmem
  simp only [envEndTail, List.mem_append, List.mem_singleton] at hmem
  rcases hmem with ((h | h) | h) | h
  · exact absurd h (by decide)
  · exact absurd h (by decide)
  · exact absurd (hw.2 '\\' h) (by decide)
  · exact absurd h (by decide)

theorem envEnd_no_ws {env : List Char} (hw : wordOk env) :
    ∀ c ∈ envEnd env, isPySpace c = false := by
  intro c hmem
  rw [envEnd_cons] at hmem
  rcases List.mem_cons.mp hmem with rfl | hmem'
  · decide
  · simp only [envEndTail, List.mem_append, List.mem_singleton] at hmem'
    rcases hmem' with ((h | h) | h) | h
    · fin_cases h <;> decide
    · rcases h with rfl; decide
    · exact word_not_space (hw.2 c h)
    · rcases h with rfl; decide

theorem envEnd_ne_nil (env : List Char) : envEnd env ≠ [] := by
  rw [envEnd_cons]; simp

/-- Python `str.rstrip` splits off an all-whitespace tail. -/
theorem rstrip_decomp (s : List Char) :
    ∃ w, s = rstripPy s ++ w ∧ ∀ c ∈ w, isPySpace c = true := by
  refine ⟨(s.reverse.takeWhile isPySpace).reverse, ?_, ?_⟩
  · calc s = s.reverse.reverse := (List.reverse_reverse s).symm
    _ = (s.reverse.takeWhile isPySpace ++ s.reverse.dropWhile isPySpace).reverse := by
        rw [List.takeWhile_append_dropWhile]
    _ = (s.reverse.dropWhile isPySpace).reverse ++
          (s.reverse.takeWhile isPySpace).reverse := by
        rw [List.reverse_append]
    _ = rstripPy s ++ (s.reverse.takeWhile isPySpace).reverse := rfl
  · intro c hc
    rw [List.mem_reverse] at hc
    exact List.mem_takeWhile_imp hc

/-- `rstrip` never loses an occurrence of a whitespace-free token. -/
theorem occCount_rstrip_ge {r t : List Char} (ht : t = '\\' :: r)
    (hws : ∀ c ∈ t, isPySpace c = false) (s : List Char) :
    occCount t s ≤ occCount t (rstripPy s) := by
  classical
  obtain ⟨w, hsw, hwall⟩ := rstrip_decomp s
  set A := rstripPy s with hA
  have htne : t ≠ [] := by rw [ht]; simp
  have htlen : 1 ≤ t.length := by rw [ht]; simp
  apply Finset.card_le_card
  intro q hq
  obtain ⟨_, hocc⟩ := mem_occSet.mp hq
  have hqlt : q < s.length := occAt_lt_length htne hocc
  have hqtl : q + t.length ≤ s.length := by
    have h := startsL_length_le hocc
    rw [List.length_drop] at h
    omega
  have hdropA : s.drop A.length = w := by
    rw [hsw, drop_len_append]
  have hkey : q + t.length ≤ A.length := by
    by_contra hcon
    push_neg at hcon
    by_cases hqA : q < A.length
    · have hi : A.length - q < t.length := by omega
      have h1 := occAt_getQ hocc (A.length - q) hi
      have hqi : q + (A.length - q) = A.length := by omega
      rw [hqi] at h1
      have h2 : s.get? A.length = w.get? 0 := by
        have h3 := List.get?_drop s A.length 0
        rw [hdropA] at h3
        simpa using h3.symm
      rw [h2] at h1
      cases hwg : w.get? 0 with
      | none =>
        rw [hwg] at h1
        have h4 := List.get?_eq_get (l := t) hi
        rw [h4] at h1
        exact Option.noConfusion h1.symm
      | some w0 =>
        rw [hwg] at h1
        have hw0 : w0 ∈ w := List.get?_mem hwg
        have hmem : w0 ∈ t := List.get?_mem h1.symm
        have := hws w0 hmem
        rw [hwall w0 hw0] at this
        exact Bool.noConfusion this
    · have h1 := occAt_getQ hocc 0 (by omega)
      rw [Nat.add_zero, ht] at h1
      simp only [List.get?] at h1
      have h2 : s.get? q = w.get? (q - A.length) := by
        have h3 := List.get?_drop s A.length (q - A.length)
        rw [hdropA] at h3
        have h4 : A.length + (q - A.length) = q := by omega
        rw [h4] at h3
        exact h3.symm
      rw [h2] at h1
      have hmem : '\\' ∈ w := List.get?_mem h1
      have := hwall '\\' hmem
      exact absurd this (by decide)
  refine mem_occSet.mpr ⟨by omega, ?_⟩
  have hdrop : s.drop q = A.drop q ++ w := by
    rw [hsw]
    exact drop_append_of_le _ _ _ (by omega)
  unfold occAt at hocc ⊢
  rw [hdrop] at hocc
  refine startsL_of_append_le hocc ?_
  rw [List.length_drop]
  omega

theorem take_append_of_le : ∀ (a b : List Char) (n : Nat), n ≤ a.length →
    (a ++ b).take n = a.take n
  | _, _, 0, _ => by simp
  | [], _, n + 1, h => by simp at h
  | x :: xs, b, n + 1, h => by
    simp only [List.cons_append, List.take_succ_cons]
    rw [take_append_of_le xs b n (by simpa using h)]

theorem startsL_eq_take {t v : List Char} (h : startsL t v = true) :
    v.take t.length = t := by
  obtain ⟨u, rfl⟩ := (startsL_iff_exists _ _).mp h
  exact take_len_append t u

/-- Two tokens occurring at the same position: the shorter one is a prefix
of the longer. -/
theorem occAt_same_pos {ta tb s : List Char} {p : Nat}
    (ha : occAt ta s p = true) (hb : occAt tb s p = true)
    (hlen : ta.length ≤ tb.length) : startsL ta tb = true := by
  obtain ⟨ub, hub⟩ := (startsL_iff_exists _ _).mp hb
  have h1 : (s.drop p).take ta.length = ta := startsL_eq_take ha
  rw [hub, take_append_of_le _ _ _ hlen] at h1
  refine (startsL_iff_exists _ _).mpr ⟨tb.drop ta.length, ?_⟩
  conv_lhs => rw [← List.take_append_drop ta.length tb]
  rw [h1]

/-- Distinct word names give end tokens neither of which is a prefix of
the other. -/
theorem envEnd_prefix_eq {a b : List Char}
    (hwb : wordOk b) (h : startsL (envEnd a) (envEnd b) = true) : a = b := by
  obtain ⟨u, hu⟩ := (startsL_iff_exists _ _).mp h
  have hcan : b ++ [rbr] = a ++ ([rbr] ++ u) := by
    unfold envEnd at hu
    simp only [List.append_assoc] at hu
    have h2 := List.append_cancel_left hu
    exact List.append_cancel_left h2
  have hlen : b.length + 1 = a.length + 1 + u.length := by
    have h3 := congrArg List.length hcan
    simp at h3
    omega
  by_cases hab : a.length = b.length
  · have hu0 : u = [] := by
      have hul : u.length = 0 := by omega
      exact List.length_eq_zero.mp hul
    rw [hu0, List.append_nil] at hcan
    have h4 : (b ++ [rbr]).take b.length = (a ++ [rbr]).take b.length := by
      rw [hcan]
    rw [take_len_append, ← hab, take_len_append] at h4
    exact h4.symm
  · exfalso
    have hlt : a.length < b.length := by omega
    have h5 : (b ++ [rbr]).get? a.length = b.get? a.length :=
      List.get?_append hlt
    have h6 : (a ++ ([rbr] ++ u)).get? a.length = some rbr := by
      rw [getQ_append_len]
      rfl
    rw [hcan, h6] at h5
    have hmem : rbr ∈ b := List.get?_mem h5.symm
    exact absurd (hwb.2 rbr hmem) (by decide)

/-- Mixed-token disjointness: occurrences of two backslash-headed,
backslash-free-tailed tokens never overlap properly. -/
theorem occ_disjoint2 {r1 t1 r2 t2 s : List Char}
    (h1t : t1 = '\\' :: r1) (hr1 : '\\' ∉ r1) (h2t : t2 = '\\' :: r2)
    {p q : Nat} (hq : occAt t1 s q = true) (hp : occAt t2 s p = true)
    (hlt : q < p) : q + t1.length ≤ p := by
  by_contra hc
  push_neg at hc
  have hd : p - q < t1.length := by omega
  have h1 := occAt_getQ hq (p - q) hd
  have hpq : q + (p - q) = p := by omega
  rw [hpq] at h1
  have h2 := occAt_getQ hp 0 (by rw [h2t]; simp)
  rw [Nat.add_zero, h2t] at h2
  simp only [List.get?] at h2
  rw [h2] at h1
  have h3 : t1.get? (p - q) = r1.get? (p - q - 1) := by
    rw [h1t]
    cases hk : p - q with
    | zero => omega
    | succ k => simp
  rw [h3] at h1
  exact hr1 (List.get?_mem h1.symm)

/-- Removing an occurrence of `\end{x}` never loses an occurrence of
`\end{env}` for a different word name `env`. -/
theorem occCount_remove_other {env x s : List Char} {p : Nat}
    (hwe : wordOk env) (hwx : wordOk x) (hne : env ≠ x)
    (hp : occAt (envEnd x) s p = true) :
    occCount (envEnd env) s ≤
      occCount (envEnd env) (s.take p ++ s.drop (p + (envEnd x).length)) := by
  classical
  have hple : p < s.length := occAt_lt_length (envEnd_ne_nil x) hp
  have hptl : p + (envEnd x).length ≤ s.length := by
    have h := startsL_length_le hp
    rw [List.length_drop] at h
    omega
  have hclass : ∀ q ∈ occSet (envEnd env) s,
      q + (envEnd env).length ≤ p ∨ p + (envEnd x).length ≤ q := by
    intro q hqm
    obtain ⟨_, hq⟩ := mem_occSet.mp hqm
    rcases Nat.lt_trichotomy q p with hlt | rfl | hgt
    · exact Or.inl (occ_disjoint2 (envEnd_cons env) (envEnd_tail_no_bs hwe)
        (envEnd_cons x) hq hp hlt)
    · exfalso
      rcases Nat.le_total (envEnd env).length (envEnd x).length with hle | hle
      · exact hne (envEnd_prefix_eq hwx (occAt_same_pos hq hp hle))
      · exact hne (envEnd_prefix_eq hwe (occAt_same_pos hp hq hle)).symm
    · exact Or.inr (occ_disjoint2 (envEnd_cons x) (envEnd_tail_no_bs hwx)
        (envEnd_cons env) hp hq hgt)
  apply Finset.card_le_card_of_injOn
    (fun q => if q < p then q else q - (envEnd x).length)
  · intro q hqm
    obtain ⟨_, hq⟩ := mem_occSet.mp hqm
    have hlen : (s.take p ++ s.drop (p + (envEnd x).length)).length =
        p + (s.length - (p + (envEnd x).length)) := by
      rw [List.length_append, List.length_take, List.length_drop]
      omega
    have htlen : 1 ≤ (envEnd env).length := by rw [envEnd_cons]; simp
    rcases hclass q hqm with hL | hR
    · have hqp : q < p := by omega
      rw [if_pos hqp]
      exact mem_occSet.mpr ⟨by omega, occ_splice_left hq hL (Nat.le_of_lt hple)⟩
    · have hqp : ¬(q < p) := by
        have h1 : 1 ≤ (envEnd x).length := by rw [envEnd_cons]; simp
        omega
      rw [if_neg hqp]
      refine mem_occSet.mpr ⟨?_,
        occ_splice_right hq hR (Nat.le_of_lt hple)⟩
      have hqs : q < s.length := occAt_lt_length (envEnd_ne_nil env) hq
      omega
  · intro q1 h1 q2 h2 heq
    simp only at heq
    have hx1 : 1 ≤ (envEnd x).length := by rw [envEnd_cons]; simp
    have he1 : 1 ≤ (envEnd env).length := by rw [envEnd_cons]; simp
    rcases hclass q1 h1 with hL1 | hR1 <;> rcases hclass q2 h2 with hL2 | hR2
    · rw [if_pos (by omega), if_pos (by omega)] at heq
      exact heq
    · rw [if_pos (by omega), if_neg (by omega)] at heq
      omega
    · rw [if_neg (by omega), if_pos (by omega)] at heq
      omega
    · rw [if_neg (by omega), if_neg (by omega)] at heq
      omega

theorem lastOccFrom_spec : ∀ (n : Nat) (t s : List Char),
    (∀ p, lastOccFrom t s n = some p →
      occAt t s p = true ∧ p ≤ n ∧ ∀ q, q ≤ n → occAt t s q = true → q ≤ p)
    ∧ (lastOccFrom t s n = none → ∀ q, q ≤ n → occAt t s q = false) := by
  intro n
  induction n with
  | zero =>
    intro t s
    constructor
    · intro p hp
      unfold lastOccFrom at hp
      by_cases h0 : occAt t s 0 = true
      · rw [if_pos h0] at hp
        injection hp with hp'
        subst hp'
        exact ⟨h0, Nat.le_refl 0, fun q hq _ => hq⟩
      · rw [if_neg h0] at hp
        exact Option.noConfusion hp
    · intro hp q hq
      unfold lastOccFrom at hp
      by_cases h0 : occAt t s 0 = true
      · rw [if_pos h0] at hp
        exact Option.noConfusion hp
      · interval_cases q
        exact (Bool.not_eq_true _).mp h0
  | succ n ih =>
    intro t s
    constructor
    · intro p hp
      unfold lastOccFrom at hp
      by_cases hn : occAt t s (n + 1) = true
      · rw [if_pos hn] at hp
        injection hp with hp'
        subst hp'
        exact ⟨hn, Nat.le_refl _, fun q hq _ => hq⟩
      · rw [if_neg hn] at hp
        obtain ⟨ho, hle, hmax⟩ := (ih t s).1 p hp
        refine ⟨ho, Nat.le_succ_of_le hle, ?_⟩
        intro q hq hocc
        rcases Nat.lt_or_ge q (n + 1) with h | h
        · exact hmax q (by omega) hocc
        · have hq1 : q = n + 1 := by omega
          rw [hq1] at hocc
          exact absurd hocc hn
    · intro hp q hq
      unfold lastOccFrom at hp
      by_cases hn : occAt t s (n + 1) = true
      · rw [if_pos hn] at hp
        exact Option.noConfusion hp
      · rw [if_neg hn] at hp
        rcases Nat.lt_or_ge q (n + 1) with h | h
        · exact (ih t s).2 hp q (by omega)
        · have hq1 : q = n + 1 := by omega
          rw [hq1]
          exact (Bool.not_eq_true _).mp hn

theorem lastOcc_some_of_occ {t s : List Char} {r : Nat} (ht : t ≠ [])
    (h : occAt t s r = true) :
    ∃ p, lastOcc t s = some p ∧ occAt t s p = true ∧
      ∀ q, occAt t s q = true → q ≤ p := by
  cases hl : lastOcc t s with
  | none =>
    exfalso
    have hnone := (lastOccFrom_spec s.length t s).2 hl r
      (Nat.le_of_lt (occAt_lt_length ht h))
    rw [hnone] at h
    exact Bool.noConfusion h
  | some p =>
    obtain ⟨ho, _, hmax⟩ := (lastOccFrom_spec s.length t s).1 p hl
    refine ⟨p, rfl, ho, ?_⟩
    intro q hq
    exact hmax q (Nat.le_of_lt (occAt_lt_length ht hq)) hq

theorem occAt_drop (t s : List Char) (k q : Nat) :
    occAt t (s.drop k) q = occAt t s (k + q) := by
  unfold occAt
  rw [List.drop_drop]

theorem occCount_drop_le (t s : List Char) (k : Nat) (ht : t ≠ []) :
    occCount t (s.drop k) ≤ occCount t s := by
  classical
  apply Finset.card_le_card_of_injOn (fun q => k + q)
  · intro q hq
    obtain ⟨hqr, hocc⟩ := mem_occSet.mp hq
    rw [occAt_drop] at hocc
    refine mem_occSet.mpr ⟨?_, hocc⟩
    have := occAt_lt_length ht hocc
    omega
  · intro q1 _ q2 _ heq
    exact Nat.add_left_cancel heq

theorem occCount_drop_succ {t s : List Char} {k : Nat} (ht : t ≠ [])
    (h : occAt t s 0 = true) (hk : 1 ≤ k) :
    occCount t (s.drop k) + 1 ≤ occCount t s := by
  classical
  have h0 : 0 ∈ occSet t s := mem_occSet.mpr ⟨by omega, h⟩
  have hsub : insert 0 ((occSet t (s.drop k)).image (fun q => k + q)) ⊆
      occSet t s := by
    intro y hy
    rcases Finset.mem_insert.mp hy with rfl | hy'
    · exact h0
    · obtain ⟨q, hq, rfl⟩ := Finset.mem_image.mp hy'
      obtain ⟨hqr, hocc⟩ := mem_occSet.mp hq
      rw [occAt_drop] at hocc
      refine mem_occSet.mpr ⟨?_, hocc⟩
      have := occAt_lt_length ht hocc
      omega
  have hnot : 0 ∉ (occSet t (s.drop k)).image (fun q => k + q) := by
    intro hmem
    obtain ⟨q, _, hq0⟩ := Finset.mem_image.mp hmem
    have hq0' : k + q = 0 := hq0
    omega
  have hinj : Function.Injective (fun q => k + q) := by
    intro a b hab
    exact Nat.add_left_cancel hab
  have hcard := Finset.card_le_card hsub
  rw [Finset.card_insert_of_not_mem hnot,
    Finset.card_image_of_injective _ hinj] at hcard
  exact hcard

theorem takeWhile_startsL (p : Char → Bool) : ∀ (l : List Char),
    startsL (l.takeWhile p) l = true := by
  intro l
  induction l with
  | nil => rfl
  | cons c t ih =>
    by_cases hc : p c = true
    · simp only [List.takeWhile_cons, hc, if_true]
      simp only [startsL, beq_self_eq_true, Bool.true_and]
      exact ih
    · simp only [List.takeWhile_cons, hc]
      rfl

/-- Every name the balance scan extracts is a nonempty word-character run. -/
theorem findEnv_names_ok : ∀ (fuel : Nat) (intro s : List Char),
    ∀ nm ∈ findEnvTokensLoop intro fuel s, wordOk nm := by
  intro fuel
  induction fuel with
  | zero => intro intro s nm h; exact absurd h (List.not_mem_nil _)
  | succ f ih =>
    intro intro s nm hmem
    cases s with
    | nil =>
      unfold findEnvTokensLoop at hmem
      exact absurd hmem (List.not_mem_nil _)
    | cons c rest =>
      simp only [findEnvTokensLoop] at hmem
      split at hmem
      · split at hmem
        · rcases List.mem_cons.mp hmem with rfl | hmem'
          · rename_i hcond
            simp only [Bool.and_eq_true, Bool.not_eq_true'] at hcond
            constructor
            · intro hn
              rw [hn] at hcond
              exact absurd hcond.1 (by decide)
            · intro ch hch
              exact List.mem_takeWhile_imp hch
          · exact ih intro _ nm hmem'
        · exact ih intro rest nm hmem
      · exact ih intro rest nm hmem

/-- The scan finds at most as many `env` tokens as there are substring
occurrences of `intro ++ env ++ "}"`. -/
theorem findEnv_count_le_occ : ∀ (fuel : Nat) (intro s env : List Char),
    wordOk env →
    (findEnvTokensLoop intro fuel s).count env ≤
      occCount (intro ++ env ++ [rbr]) s := by
  intro fuel
  induction fuel with
  | zero => intro intro s env _; simp [findEnvTokensLoop]
  | succ f ih =>
    intro intro s env hw
    cases s with
    | nil => simp [findEnvTokensLoop]
    | cons c rest =>
      simp only [findEnvTokensLoop]
      split
      · rename_i hintro
        split
        · rename_i hcond
          rw [List.count_cons]
          by_cases hname :
              ((c :: rest).drop intro.length).takeWhile isWordChar = env
          · -- an occurrence of the token at position 0
            simp only [Bool.and_eq_true, Bool.not_eq_true'] at hcond
            have hocc0 : occAt (intro ++ env ++ [rbr]) (c :: rest) 0 = true := by
              unfold occAt
              rw [List.drop_zero]
              have hd1 : (c :: rest) =
                  intro ++ (c :: rest).drop intro.length :=
                startsL_decomp hintro
              set after := (c :: rest).drop intro.length with hafter
              have hd2 : after = env ++ after.drop env.length := by
                have := startsL_decomp (t := env) (s := after)
                  (by rw [← hname]; exact takeWhile_startsL _ _)
                rwa [← hname] at this ⊢
              have hd3 : ∃ t2, after.drop env.length = rbr :: t2 := by
                rcases hx : after.drop env.length with _ | ⟨d, t2⟩
                · rw [hname, hx] at hcond
                  exact absurd hcond.2 (by simp)
                · rw [hname, hx] at hcond
                  have := hcond.2
                  simp only [List.head?_cons, Option.some.injEq, beq_iff_eq] at this
                  exact ⟨t2, by rw [this]⟩
              obtain ⟨t2, ht2⟩ := hd3
              rw [hd1, hd2, ht2]
              have hassoc : intro ++ (env ++ (rbr :: t2)) =
                  (intro ++ env ++ [rbr]) ++ t2 := by
                simp [List.append_assoc]
              rw [hassoc]
              exact startsL_append_self _ _
            have hrec := ih intro
              ((c :: rest).drop (intro.length +
                (((c :: rest).drop intro.length).takeWhile isWordChar).length + 1))
              env hw
            have hne : intro ++ env ++ [rbr] ≠ [] := by simp
            have hdrop := occCount_drop_succ (t := intro ++ env ++ [rbr])
              (s := c :: rest) (k := intro.length +
                (((c :: rest).drop intro.length).takeWhile isWordChar).length + 1)
              hne hocc0 (by omega)
            have hbeq : (((c :: rest).drop intro.length).takeWhile isWordChar
                == env) = true := by simp [hname]
            rw [hbeq]
            simp only [if_true]
            omega
          · have hbeq : (((c :: rest).drop intro.length).takeWhile isWordChar
                == env) = false := by
              simp only [beq_eq_false_iff_ne, ne_eq]
              exact hname
            rw [hbeq]
            simp only [Bool.false_eq_true, if_false, Nat.add_zero]
            calc (findEnvTokensLoop intro f _).count env ≤
                occCount (intro ++ env ++ [rbr]) ((c :: rest).drop _) := ih _ _ _ hw
            _ ≤ occCount (intro ++ env ++ [rbr]) (c :: rest) :=
                occCount_drop_le _ _ _ (by simp)
        · calc (findEnvTokensLoop intro f rest).count env ≤
              occCount (intro ++ env ++ [rbr]) rest := ih _ _ _ hw
          _ ≤ occCount (intro ++ env ++ [rbr]) (c :: rest) := by
              have := occCount_drop_le (intro ++ env ++ [rbr]) (c :: rest) 1
                (by simp)
              simpa using this
      · calc (findEnvTokensLoop intro f rest).count env ≤
            occCount (intro ++ env ++ [rbr]) rest := ih _ _ _ hw
        _ ≤ occCount (intro ++ env ++ [rbr]) (c :: rest) := by
            have := occCount_drop_le (intro ++ env ++ [rbr]) (c :: rest) 1
              (by simp)
            simpa using this

/-! ### Fix bookkeeping of `fix_mismatched_environments` -/

theorem countP_replicate {A : Type} (p : A → Bool) (a : A) :
    ∀ n : Nat, (List.replicate n a).countP p = if p a then n else 0 := by
  intro n
  induction n with
  | zero => simp
  | succ k ih =>
    rw [List.replicate_succ, List.countP_cons, ih]
    by_cases hp : p a
    · simp [hp]
    · simp [hp]

theorem countP_append_replicate (p : LatexFix → Bool) (l : List LatexFix)
    (a : LatexFix) (n : Nat) (ha : p a = false) :
    (l ++ List.replicate n a).countP p = l.countP p := by
  rw [List.countP_append, countP_replicate, ha]
  simp

theorem countP_append_replicate_true (p : LatexFix → Bool) (l : List LatexFix)
    (a : LatexFix) (n : Nat) (ha : p a = true) :
    (l ++ List.replicate n a).countP p = l.countP p + n := by
  rw [List.countP_append, countP_replicate, ha]
  simp

theorem beq_name_false {a b : List Char} (h : a ≠ b) : (a == b) = false := by
  cases hb : (a == b) with
  | false => rfl
  | true => exact absurd (eq_of_beq hb) h

/-- The fix recorded for one appended closer. -/
def addEndFix (env : List Char) : LatexFix :=
  ⟨addEndFixName env, ("Added missing ").data ++ envEnd env⟩

/-- The fix recorded for one removed closer. -/
def removeEndFix (env : List Char) : LatexFix :=
  ⟨removeEndFixName env, ("Removed extra ").data ++ envEnd env⟩

theorem addEndFixName_inj {x env : List Char}
    (h : addEndFixName x = addEndFixName env) : x = env :=
  List.append_cancel_left h

theorem removeEndFixName_inj {x env : List Char}
    (h : removeEndFixName x = removeEndFixName env) : x = env :=
  List.append_cancel_left h

theorem addEndFixName_ne_remove (x env : List Char) :
    addEndFixName x ≠ removeEndFixName env := by
  intro h
  have h2 : (addEndFixName x).head? = (removeEndFixName env).head? :=
    congrArg List.head? h
  have ha : (addEndFixName x).head? = some 'a' := rfl
  have hr : (removeEndFixName env).head? = some 'r' := rfl
  rw [ha, hr] at h2
  exact absurd h2 (by decide)

theorem appendEndLoop_fixes (env : List Char) :
    ∀ (k : Nat) (acc : List Char × List LatexFix),
    (appendEndLoop env k acc).2 = acc.2 ++ List.replicate k (addEndFix env) := by
  intro k
  induction k with
  | zero => intro acc; simp [appendEndLoop]
  | succ n ih =>
    intro acc
    rw [appendEndLoop, ih]
    simp [addEndFix, List.replicate_succ]

theorem appendEndLoop_occ (e t : List Char) (hw : wordOk t) :
    ∀ (k : Nat) (acc : List Char × List LatexFix),
    occCount (envEnd t) acc.1 ≤ occCount (envEnd t) (appendEndLoop e k acc).1 := by
  intro k
  induction k with
  | zero => intro acc; exact Nat.le_refl _
  | succ n ih =>
    intro acc
    rw [appendEndLoop]
    refine Nat.le_trans ?_ (ih _)
    refine Nat.le_trans (occCount_rstrip_ge (envEnd_cons t) (envEnd_no_ws hw) acc.1) ?_
    exact Nat.le_trans (occCount_mono_append _ _ ('\n' :: envEnd e))
      (occCount_mono_append _ _ ['\n'])

theorem occCount_pos_exists {t s : List Char} (h : 0 < occCount t s) :
    ∃ p, occAt t s p = true := by
  classical
  obtain ⟨p, hp⟩ := Finset.card_pos.mp h
  exact ⟨p, (mem_occSet.mp hp).2⟩

theorem removeEndLoop_fixes (env : List Char) :
    ∀ (k : Nat) (acc : List Char × List LatexFix),
    ∃ n, (removeEndLoop env k acc).2 =
      acc.2 ++ List.replicate n (removeEndFix env) := by
  intro k
  induction k with
  | zero => intro acc; exact ⟨0, by simp [removeEndLoop]⟩
  | succ m ih =>
    intro acc
    rw [removeEndLoop]
    cases hl : lastOcc (envEnd env) acc.1 with
    | none =>
      simp only [hl]
      exact ih acc
    | some idx =>
      simp only [hl]
      obtain ⟨n, hn⟩ := ih _
      refine ⟨n + 1, ?_⟩
      rw [hn]
      simp [removeEndFix, List.replicate_succ, List.append_assoc]

theorem removeEndLoop_fixes_exact (env : List Char) (hw : wordOk env) :
    ∀ (k : Nat) (acc : List Char × List LatexFix),
    k ≤ occCount (envEnd env) acc.1 →
    (removeEndLoop env k acc).2 = acc.2 ++ List.replicate k (removeEndFix env) := by
  intro k
  induction k with
  | zero => intro acc _; simp [removeEndLoop]
  | succ m ih =>
    intro acc hk
    have hpos : 0 < occCount (envEnd env) acc.1 := by omega
    obtain ⟨p, hp⟩ := occCount_pos_exists hpos
    obtain ⟨idx, hidx, hocc, hmax⟩ := lastOcc_some_of_occ (envEnd_ne_nil env) hp
    rw [removeEndLoop]
    simp only [hidx]
    have hrem := occCount_remove_last (envEnd_cons env)
      (envEnd_tail_no_bs hw) hocc hmax
    have hk' : m ≤ occCount (envEnd env)
        (acc.1.take idx ++ acc.1.drop (idx + (envEnd env).length)) := by omega
    rw [ih _ hk']
    simp [removeEndFix, List.replicate_succ, List.append_assoc]

theorem removeEndLoop_occ_other {env x : List Char} (hwe : wordOk env)
    (hwx : wordOk x) (hne : env ≠ x) :
    ∀ (k : Nat) (acc : List Char × List LatexFix),
    occCount (envEnd env) acc.1 ≤
      occCount (envEnd env) (removeEndLoop x k acc).1 := by
  intro k
  induction k with
  | zero => intro acc; exact Nat.le_refl _
  | succ m ih =>
    intro acc
    rw [removeEndLoop]
    cases hl : lastOcc (envEnd x) acc.1 with
    | none => simp only [hl]; exact ih acc
    | some idx =>
      simp only [hl]
      have hocc : occAt (envEnd x) acc.1 idx = true :=
        ((lastOccFrom_spec acc.1.length (envEnd x) acc.1).1 idx hl).1
      refine Nat.le_trans ?_ (ih _)
      exact occCount_remove_other hwe hwx hne hocc

theorem fixEnvStep_frozen (begins ends : List (List Char)) {env x : List Char}
    (hne : x ≠ env) (acc : List Char × List LatexFix) :
    ((fixEnvStep begins ends acc x).2.countP
        (fun f => f.name == addEndFixName env) =
      acc.2.countP (fun f => f.name == addEndFixName env)) ∧
    ((fixEnvStep begins ends acc x).2.countP
        (fun f => f.name == removeEndFixName env) =
      acc.2.countP (fun f => f.name == removeEndFixName env)) := by
  have haa : ((addEndFix x).name == addEndFixName env) = false :=
    beq_name_false (fun h => hne (addEndFixName_inj h))
  have har : ((addEndFix x).name == removeEndFixName env) = false :=
    beq_name_false (addEndFixName_ne_remove x env)
  have hra : ((removeEndFix x).name == addEndFixName env) = false :=
    beq_name_false (fun h => addEndFixName_ne_remove env x h.symm)
  have hrr : ((removeEndFix x).name == removeEndFixName env) = false :=
    beq_name_false (fun h => hne (removeEndFixName_inj h))
  simp only [fixEnvStep]
  by_cases h1 : ends.count x < begins.count x
  · simp only [if_pos h1]
    rw [appendEndLoop_fixes]
    exact ⟨countP_append_replicate _ _ _ _ haa, countP_append_replicate _ _ _ _ har⟩
  · simp only [if_neg h1]
    by_cases h2 : begins.count x < ends.count x
    · simp only [if_pos h2]
      obtain ⟨n, hn⟩ := removeEndLoop_fixes x (ends.count x - begins.count x) acc
      rw [hn]
      exact ⟨countP_append_replicate _ _ _ _ hra, countP_append_replicate _ _ _ _ hrr⟩
    · simp only [if_neg h2]
      refine ⟨?_, ?_⟩ <;> trivial

theorem fixEnvStep_occ (begins ends : List (List Char)) {env x : List Char}
    (hwe : wordOk env) (hwx : wordOk x) (hne : env ≠ x)
    (acc : List Char × List LatexFix) :
    occCount (envEnd env) acc.1 ≤
      occCount (envEnd env) (fixEnvStep begins ends acc x).1 := by
  simp only [fixEnvStep]
  by_cases h1 : ends.count x < begins.count x
  · simp only [if_pos h1]
    exact appendEndLoop_occ x env hwe _ _
  · simp only [if_neg h1]
    by_cases h2 : begins.count x < ends.count x
    · simp only [if_pos h2]
      exact removeEndLoop_occ_other hwe hwx hne _ _
    · simp only [if_neg h2]
      exact Nat.le_refl _

theorem fixEnvStep_self (begins ends : List (List Char)) {x : List Char}
    (hwx : wordOk x) (acc : List Char × List LatexFix)
    (hocc : ends.count x ≤ occCount (envEnd x) acc.1) :
    ((fixEnvStep begins ends acc x).2.countP
        (fun f => f.name == addEndFixName x) =
      acc.2.countP (fun f => f.name == addEndFixName x) +
        (begins.count x - ends.count x)) ∧
    ((fixEnvStep begins ends acc x).2.countP
        (fun f => f.name == removeEndFixName x) =
      acc.2.countP (fun f => f.name == removeEndFixName x) +
        (ends.count x - begins.count x)) := by
  have haa : ((addEndFix x).name == addEndFixName x) = true := beq_self_eq_true _
  have hrr : ((removeEndFix x).name == removeEndFixName x) = true := beq_self_eq_true _
  have har : ((addEndFix x).name == removeEndFixName x) = false :=
    beq_name_false (addEndFixName_ne_remove x x)
  have hra : ((removeEndFix x).name == addEndFixName x) = false :=
    beq_name_false (fun h => addEndFixName_ne_remove x x h.symm)
  simp only [fixEnvStep]
  by_cases h1 : ends.count x < begins.count x
  · simp only [if_pos h1]
    rw [appendEndLoop_fixes]
    constructor
    · rw [countP_append_replicate_true _ _ _ _ haa]
    · rw [countP_append_replicate _ _ _ _ har]
      omega
  · simp only [if_neg h1]
    by_cases h2 : begins.count x < ends.count x
    · simp only [if_pos h2]
      have hk : ends.count x - begins.count x ≤ occCount (envEnd x) acc.1 := by omega
      rw [removeEndLoop_fixes_exact x hwx _ acc hk]
      constructor
      · rw [countP_append_replicate _ _ _ _ hra]
        omega
      · rw [countP_append_replicate_true _ _ _ _ hrr]
    · simp only [if_neg h2]
      constructor
      · have hz : begins.count x - ends.count x = 0 := by omega
        rw [hz]
        omega
      · have hz : ends.count x - begins.count x = 0 := by omega
        rw [hz]
        omega

theorem fixFold_frozen (begins ends : List (List Char)) (env : List Char) :
    ∀ (l : List (List Char)), (∀ x ∈ l, x ≠ env) →
    ∀ acc : List Char × List LatexFix,
    ((l.foldl (fixEnvStep begins ends) acc).2.countP
        (fun f => f.name == addEndFixName env) =
      acc.2.countP (fun f => f.name == addEndFixName env)) ∧
    ((l.foldl (fixEnvStep begins ends) acc).2.countP
        (fun f => f.name == removeEndFixName env) =
      acc.2.countP (fun f => f.name == removeEndFixName env)) := by
  intro l
  induction l with
  | nil => intro _ acc; exact ⟨rfl, rfl⟩
  | cons x l2 ih =>
    intro hl acc
    have hx : x ≠ env := hl x (List.mem_cons_self x l2)
    have hstep := fixEnvStep_frozen begins ends hx acc
    have hrest := ih (fun y hy => hl y (List.mem_cons_of_mem x hy))
      (fixEnvStep begins ends acc x)
    rw [List.foldl_cons]
    exact ⟨hrest.1.trans hstep.1, hrest.2.trans hstep.2⟩

theorem fixFold_main (begins ends : List (List Char)) (env : List Char)
    (hwe : wordOk env) :
    ∀ (l : List (List Char)), l.Nodup → (∀ x ∈ l, wordOk x) → env ∈ l →
    ∀ acc : List Char × List LatexFix,
    ends.count env ≤ occCount (envEnd env) acc.1 →
    ((l.foldl (fixEnvStep begins ends) acc).2.countP
        (fun f => f.name == addEndFixName env) =
      acc.2.countP (fun f => f.name == addEndFixName env) +
        (begins.count env - ends.count env)) ∧
    ((l.foldl (fixEnvStep begins ends) acc).2.countP
        (fun f => f.name == removeEndFixName env) =
      acc.2.countP (fun f => f.name == removeEndFixName env) +
        (ends.count env - begins.count env)) := by
  intro l
  induction l with
  | nil => intro _ _ hmem; exact absurd hmem (List.not_mem_nil _)
  | cons x l2 ih =>
    intro hnd hw hmem acc hocc
    rw [List.foldl_cons]
    by_cases hx : x = env
    · subst hx
      have hnotin : x ∉ l2 := (List.nodup_cons.mp hnd).1
      have hfroz := fixFold_frozen begins ends x l2
        (fun y hy hyx => hnotin (hyx ▸ hy)) (fixEnvStep begins ends acc x)
      have hstep := fixEnvStep_self begins ends (hw x (List.mem_cons_self x l2))
        acc hocc
      exact ⟨hfroz.1.trans hstep.1, hfroz.2.trans hstep.2⟩
    · have hmem2 : env ∈ l2 := by
        rcases List.mem_cons.mp hmem with h | h
        · exact absurd h.symm hx
        · exact h
      have hwx : wordOk x := hw x (List.mem_cons_self x l2)
      have hocc2 : ends.count env ≤
          occCount (envEnd env) (fixEnvStep begins ends acc x).1 :=
        hocc.trans (fixEnvStep_occ begins ends hwe hwx (fun h => hx h.symm) acc)
      have hfroz := fixEnvStep_frozen begins ends hx acc
      have hmain := ih (List.nodup_cons.mp hnd).2
        (fun y hy => hw y (List.mem_cons_of_mem x hy)) hmem2
        (fixEnvStep begins ends acc x) hocc2
      constructor
      · rw [hmain.1, hfroz.1]
      · rw [hmain.2, hfroz.2]

theorem fix_counts (content env : List Char) :
    ((fix_mismatched_environments content).2.countP
        (fun f => f.name == addEndFixName env) =
      (beginEnvNames content).count env - (endEnvNames content).count env) ∧
    ((fix_mismatched_environments content).2.countP
        (fun f => f.name == removeEndFixName env) =
      (endEnvNames content).count env - (beginEnvNames content).count env) := by
  simp only [fix_mismatched_environments]
  by_cases hmem : env ∈ (beginEnvNames content ++ endEnvNames content).dedup
  · have hwe : wordOk env := by
      rcases List.mem_append.mp (List.mem_dedup.mp hmem) with h | h
      · exact findEnv_names_ok _ _ _ env h
      · exact findEnv_names_ok _ _ _ env h
    have hocc0 : (endEnvNames content).count env ≤
        occCount (envEnd env) content := by
      have h := findEnv_count_le_occ (content.length + 1) endIntro content env hwe
      have heq : endIntro ++ env ++ [rbr] = envEnd env := rfl
      rw [heq] at h
      exact h
    have hm := fixFold_main (beginEnvNames content) (endEnvNames content) env hwe
      ((beginEnvNames content ++ endEnvNames content).dedup)
      (List.nodup_dedup _)
      (fun x hx => by
        rcases List.mem_append.mp (List.mem_dedup.mp hx) with h | h
        · exact findEnv_names_ok _ _ _ x h
        · exact findEnv_names_ok _ _ _ x h)
      hmem (content, []) hocc0
    simpa using hm
  · have hb : (beginEnvNames content).count env = 0 := by
      rw [List.count_eq_zero]
      intro hc
      exact hmem (List.mem_dedup.mpr (List.mem_append.mpr (Or.inl hc)))
    have he : (endEnvNames content).count env = 0 := by
      rw [List.count_eq_zero]
      intro hc
      exact hmem (List.mem_dedup.mpr (List.mem_append.mpr (Or.inr hc)))
    have hf := fixFold_frozen (beginEnvNames content) (endEnvNames content) env
      ((beginEnvNames content ++ endEnvNames content).dedup)
      (fun x hx hxe => hmem (hxe ▸ hx)) (content, [])
    rw [hb, he]
    simpa using hf

/-- C7 counterexample: a document consisting of one `\begin{figure*}` token
and no `\end{figure*}` token — counting raw occurrences, begin-count 1
exceeds end-count 0, so the claim requires one appended `\end{figure*}`
closer and one recorded fix; but the repair tallies names with the same
`\w+` scan as the balance check, which cannot match the starred name, so it
returns the document unchanged and records no fix. -/
theorem c7_counterexample :
    countSub (envBegin (("figure*").data)) (envBegin (("figure*").data)) = 1
    ∧ countSub (envEnd (("figure*").data)) (envBegin (("figure*").data)) = 0
    ∧ fix_mismatched_environments (envBegin (("figure*").data)) =
        (envBegin (("figure*").data), []) := by
  exact ⟨by decide, by decide, by decide⟩

/-- C7 (amended): the environment-mismatch repair counts begins and ends
with the same `\w+` scan as the balance check, so names the scan cannot
extract — such as starred variants — never trigger an append or a removal;
for the counts that scan produces, the repair records, for every document
and every environment name, exactly `begin-count − end-count` append fixes
when begins exceed ends and exactly `end-count − begin-count` removal fixes
in the opposite case (each insertion or removal is one recorded fix, with
the counts taken by the one-time scan of the original document); concretely,
a document holding one unmatched `\begin` of `equation` gains exactly one
appended `\end` closer and one fix in one pass, and re-running the balance
validation on the repaired document reports no imbalance. -/
theorem c7_environment_repair_amended :
    (∀ content env : List Char,
      ((fix_mismatched_environments content).2.countP
          (fun f => f.name == addEndFixName env) =
        (beginEnvNames content).count env - (endEnvNames content).count env) ∧
      ((fix_mismatched_environments content).2.countP
          (fun f => f.name == removeEndFixName env) =
        (endEnvNames content).count env - (beginEnvNames content).count env)) ∧
    fix_mismatched_environments (envBegin (("equation").data) ++ ['x']) =
      (envBegin (("equation").data) ++ 'x' :: '\n' ::
        (envEnd (("equation").data) ++ ['\n']),
       [⟨addEndFixName (("equation").data),
         ("Added missing ").data ++ envEnd (("equation").data)⟩]) ∧
    envImbalanceIssues (envBegin (("equation").data) ++ 'x' :: '\n' ::
        (envEnd (("equation").data) ++ ['\n'])) = [] :=
  ⟨fun content env => fix_counts content env, by decide, by decide⟩

end LatexModel
